import Mathlib

/-!
# Hardware PWM channel manager (`cores/arduino/HardwarePWM.h`)

A shallow embedding of the LPC176x hardware PWM helpers: the pin feature
lookup, the match register address computation, the active pin bitset and
the attach / detach / set-match / set-period register protocol.

Machine words are natural numbers; every place where the C++ code computes
in a fixed width carries an explicit reduction modulo `2 ^ 32` (or
`2 ^ 8` for the `uint8_t` pin id).  The registers of the `LPC_PWM1` block
(`MR0`, `PCR`, `LER` and the words addressed by `pwm_match_lookup`) are words
of one address-keyed memory, so two names for one address denote one word.
-/

namespace HardwarePWM

/-! ## Collaborators that live outside `HardwarePWM.h` -/

/-- Modelled from the spec: the pin identifier `pin_t` of `pinmapping.h`,
an opaque value that decomposes into a `port` and a PWM `channel`
(`0` meaning that the pin has no PWM capability). -/
structure pin_t where
  port : Nat
  pwm : Nat
deriving DecidableEq, Repr

/-- Modelled from the spec: the accessor macro `LPC1768_PIN_PORT` of
`pinmapping.h`, the port of a pin. -/
def LPC1768_PIN_PORT (pin : pin_t) : Nat := pin.port

/-- Modelled from the spec: the accessor macro `LPC1768_PIN_PWM` of
`pinmapping.h`, the PWM channel number of a pin. -/
def LPC1768_PIN_PWM (pin : pin_t) : Nat := pin.pwm

/-- Modelled from the spec: `util::bit_set(val, bit)`, which sets the single
bit `bit` of a 32-bit word (`val |= 1 << bit`). -/
def util.bit_set (val bit : Nat) : Nat :=
  val ||| ((1 <<< bit) % 4294967296)

/-- Modelled from the spec: `util::bit_clear(val, bit)`, which clears the
single bit `bit` of a 32-bit word (`val &= ~(1 << bit)`); the complement is
taken in 32 bits. -/
def util.bit_clear (val bit : Nat) : Nat :=
  val &&& (4294967295 ^^^ ((1 <<< bit) % 4294967296))

/-- Modelled from the spec: `util::bit_test(val, bit)`, true when bit `bit`
of the word is set (`val & (1 << bit)` converted to `bool`). -/
def util.bit_test (val bit : Nat) : Bool :=
  (val &&& ((1 <<< bit) % 4294967296)) != 0

/-- Modelled from the spec: `util::bitset_value(a, b, c)`, the 32-bit word
with exactly the listed bits set (`(1 << a) | (1 << b) | (1 << c)`). -/
def util.bitset_value (a b c : Nat) : Nat :=
  ((1 <<< a) ||| (1 <<< b) ||| (1 <<< c)) % 4294967296

/-- Modelled from the spec: `util::bitset_mask(value, mask)`, the bits of
`value` selected by `mask` (`value & mask`); the caller converts the result
to `bool`, so it answers whether ANY selected bit is set. -/
def util.bitset_mask (value mask : Nat) : Nat :=
  value &&& mask

/-! ## Machine state -/

/-- Modelled from the spec: the state the header reads and writes.  The
`LPC_PWM1` register block is declared outside the header.

* `active_pwm_pins` is the global 32-bit bitset of the header, a C++ object
  of its own.
* `mem` is the memory-mapped address space in 32-bit words, keyed by absolute
  address.  It holds every register of the `LPC_PWM1` block: the words reached
  through `util::memory_ref` and the fields `MR0`, `PCR` and `LER` live in
  this one map, so a store through a computed address that falls on a
  register changes that register.
* `pinsel` is the function selector chosen for each pin by
  `pin_enable_feature` (the pin-mux block, a different peripheral). -/
structure State where
  active_pwm_pins : Nat
  mem : Nat → Nat
  pinsel : pin_t → Int

/-- Modelled from the spec: `pin_enable_feature(pin, feature)` of the GPIO
pin-mux module, which switches the electrical function of `pin` to the
selector `feature` and touches nothing else. -/
def pin_enable_feature (s : State) (pin : pin_t) (feature : Int) : State :=
  { s with pinsel := Function.update s.pinsel pin feature }

/-! ## The functions of `HardwarePWM.h` -/

/-- The per-port lookup table of `pin_feature_pwm`. -/
def pin_feature_pwm.lookup : List Int := [-1, 2, 1, 3, -1]

/-- Embedding of `pin_feature_pwm`: index the five-entry table with the port.
An index outside the table has no defined result. -/
def pin_feature_pwm (pin : pin_t) : Option Int :=
  pin_feature_pwm.lookup[LPC1768_PIN_PORT pin]?

/-- Constant `MR0_OFFSET` of `pwm_match_lookup`. -/
def MR0_OFFSET : Nat := 24

/-- Constant `MR4_OFFSET` of `pwm_match_lookup`. -/
def MR4_OFFSET : Nat := 64

/-- Modelled from the spec: the place of the control register `PCR` in the
`LPC_PWM1` register block, whose declaration is outside the header; it is put
at its offset in the LPC17xx register map, `0x4C`. -/
def PCR_OFFSET : Nat := 76

/-- Modelled from the spec: the place of the latch-enable register `LER` in
the `LPC_PWM1` register block, whose declaration is outside the header; it is
put at its offset in the LPC17xx register map, `0x50`. -/
def LER_OFFSET : Nat := 80

section
variable (LPC_PWM1_BASE : Nat)

/-- Embedding of `pwm_match_lookup`: the address of the match register of the
pin's channel, computed in `uint32_t`.  `LPC_PWM1_BASE` is the base address
of the register block, a constant declared outside the header. -/
def pwm_match_lookup (pin : pin_t) : Nat :=
  (LPC_PWM1_BASE + (if LPC1768_PIN_PWM pin > 3 then MR4_OFFSET else MR0_OFFSET)
    + 4 * LPC1768_PIN_PWM pin) % 4294967296

/-- Address of the period register `LPC_PWM1->MR0`, the word at
`MR0_OFFSET` in the register block. -/
def MR0 : Nat := (LPC_PWM1_BASE + MR0_OFFSET) % 4294967296

/-- Address of the control register `LPC_PWM1->PCR`. -/
def PCR : Nat := (LPC_PWM1_BASE + PCR_OFFSET) % 4294967296

/-- Address of the latch-enable register `LPC_PWM1->LER`. -/
def LER : Nat := (LPC_PWM1_BASE + LER_OFFSET) % 4294967296

/-- Modelled from the spec: the address of the match register of a channel in
the `LPC_PWM1` block, which is laid out as two contiguous runs of words:
channels 0..3 from `MR0_OFFSET`, channels 4..6 from `MR4_OFFSET`. -/
def match_register (channel : Nat) : Nat :=
  (LPC_PWM1_BASE + (if channel > 3 then MR4_OFFSET + 4 * (channel - 4)
    else MR0_OFFSET + 4 * channel)) % 4294967296

end

/-- Embedding of `pwm_pin_id`: `port * 6 + (channel - 1)` computed in `int`
and narrowed to `uint8_t`. -/
def pwm_pin_id (pin : pin_t) : Nat :=
  ((((LPC1768_PIN_PORT pin * 6 : Nat) : Int) + ((LPC1768_PIN_PWM pin : Int) - 1)) % 256).toNat

/-- Embedding of `pwm_channel_active`: the channel is non-zero and the bitset
meets the mask made of bits `6 + channel`, `2 * 6 + channel` and
`3 * 6 + channel`, where `channel` is the `uint32_t` value of
`LPC1768_PIN_PWM(pin) - 1`. -/
def pwm_channel_active (active_pwm_pins : Nat) (pin : pin_t) : Bool :=
  let channel : Nat := (((LPC1768_PIN_PWM pin : Int) - 1) % 4294967296).toNat
  (LPC1768_PIN_PWM pin != 0) &&
    (util.bitset_mask active_pwm_pins
      (util.bitset_value ((6 + channel) % 4294967296) ((2 * 6 + channel) % 4294967296)
        ((3 * 6 + channel) % 4294967296)) != 0)

/-- Embedding of `pwm_pin_active`: the channel is non-zero and the pin's own
bit is set in the bitset. -/
def pwm_pin_active (active_pwm_pins : Nat) (pin : pin_t) : Bool :=
  (LPC1768_PIN_PWM pin != 0) && util.bit_test active_pwm_pins (pwm_pin_id pin)

section
variable (LPC_PWM1_BASE : Nat)

/-- Embedding of `pwm_set_period`: store `period - 1` (in `uint32_t`) in
`MR0`, then set latch bit 0 of `LER` (read, OR, write back). -/
def pwm_set_period (s : State) (period : Nat) : State :=
  let s1 : State :=
    { s with mem := Function.update s.mem (MR0 LPC_PWM1_BASE)
                      ((((period : Int) - 1) % 4294967296).toNat) }
  { s1 with mem := Function.update s1.mem (LER LPC_PWM1_BASE)
                      (util.bit_set (s1.mem (LER LPC_PWM1_BASE)) 0) }

/-- Embedding of `pwm_set_match`: store the value at the address
`pwm_match_lookup` gives for the pin, then set the latch bit of the pin's
channel in `LER` (read, OR, write back). -/
def pwm_set_match (s : State) (pin : pin_t) (value : Nat) : State :=
  let s1 : State :=
    { s with mem := Function.update s.mem (pwm_match_lookup LPC_PWM1_BASE pin) value }
  { s1 with mem := Function.update s1.mem (LER LPC_PWM1_BASE)
                      (util.bit_set (s1.mem (LER LPC_PWM1_BASE)) (LPC1768_PIN_PWM pin)) }

/-- Embedding of `pwm_activate_channel`: mark the pin in the bitset, then set
the output enable bit `8 + channel` of `PCR`. -/
def pwm_activate_channel (s : State) (pin : pin_t) : State :=
  let s1 : State :=
    { s with active_pwm_pins := util.bit_set s.active_pwm_pins (pwm_pin_id pin) }
  { s1 with mem := Function.update s1.mem (PCR LPC_PWM1_BASE)
                      (util.bit_set (s1.mem (PCR LPC_PWM1_BASE)) (8 + LPC1768_PIN_PWM pin)) }

/-- Embedding of `pwm_deactivate_channel`: clear the pin's bit in the bitset,
then clear the output enable bit `8 + channel` of `PCR` when
`pwm_channel_active` answers false on the updated bitset. -/
def pwm_deactivate_channel (s : State) (pin : pin_t) : State :=
  let s1 : State :=
    { s with active_pwm_pins := util.bit_clear s.active_pwm_pins (pwm_pin_id pin) }
  if !pwm_channel_active s1.active_pwm_pins pin then
    { s1 with mem := Function.update s1.mem (PCR LPC_PWM1_BASE)
                        (util.bit_clear (s1.mem (PCR LPC_PWM1_BASE)) (8 + LPC1768_PIN_PWM pin)) }
  else s1

/-- Embedding of `pwm_hardware_attach`: set the match value, activate the
channel, then select the PWM function of the pin.  The result is undefined
when the feature table is indexed out of range. -/
def pwm_hardware_attach (s : State) (pin : pin_t) (value : Nat) : Option State :=
  let s1 := pwm_set_match LPC_PWM1_BASE s pin value
  let s2 := pwm_activate_channel LPC_PWM1_BASE s1 pin
  match pin_feature_pwm pin with
  | some feature => some (pin_enable_feature s2 pin feature)
  | none => none

end

/-! ## Call sequences -/

/-- A pin that passed the caller-side validation: a real PWM channel
(`1..6`) on a port whose `pin_feature_pwm` code is not the negative
sentinel. -/
def pin_prevalidated (pin : pin_t) : Bool :=
  decide (1 ≤ LPC1768_PIN_PWM pin) && decide (LPC1768_PIN_PWM pin ≤ 6) &&
    (match pin_feature_pwm pin with
     | some feature => decide (0 ≤ feature)
     | none => false)

/-- One call into the header. -/
inductive Op where
  | attach (pin : pin_t) (value : Nat)
  | detach (pin : pin_t)
  | set_match (pin : pin_t) (value : Nat)
  | set_period (period : Nat)

/-- The pin of a call, when it has one, is a pre-validated pin. -/
def Op.prevalidated : Op → Bool
  | .attach pin _ => pin_prevalidated pin
  | .detach pin => pin_prevalidated pin
  | .set_match pin _ => pin_prevalidated pin
  | .set_period _ => true

section
variable (LPC_PWM1_BASE : Nat)

/-- Run one call on a state. -/
def step (s : State) : Op → Option State
  | .attach pin value => pwm_hardware_attach LPC_PWM1_BASE s pin value
  | .detach pin => some (pwm_deactivate_channel LPC_PWM1_BASE s pin)
  | .set_match pin value => some (pwm_set_match LPC_PWM1_BASE s pin value)
  | .set_period period => some (pwm_set_period LPC_PWM1_BASE s period)

/-- Run a sequence of calls, first call first. -/
def run (s : State) : List Op → Option State
  | [] => some s
  | op :: ops =>
    match step LPC_PWM1_BASE s op with
    | some s1 => run s1 ops
    | none => none

end

/-- The logical OR of `pwm_pin_active` over the five ports `0..4` for one
channel number. -/
def any_port_active (active_pwm_pins : Nat) (channel : Nat) : Bool :=
  (List.range 5).any fun port => pwm_pin_active active_pwm_pins ⟨port, channel⟩

/-- The state right after reset: nothing attached, every register zero. -/
def State.reset : State :=
  { active_pwm_pins := 0, mem := fun _ => 0, pinsel := fun _ => 0 }

/-- The state reached from reset by attaching the pin (port 1, channel 3)
with match value 500, with the register block at `0x40018000`. -/
def State.attached_1_3 : State :=
  pin_enable_feature
    (pwm_activate_channel 0x40018000 (pwm_set_match 0x40018000 State.reset ⟨1, 3⟩ 500) ⟨1, 3⟩)
    ⟨1, 3⟩ 2

/-- The reset state with two latch requests pending: `LER` holds 9 (bits 0
and 3), with the register block at `0x40018000`. -/
def State.latch_pending : State :=
  { State.reset with mem := Function.update State.reset.mem (LER 0x40018000) 9 }

/-- The working invariant of the registry: only bits 6..23 (the rows of ports
1..3) are ever set, and for every channel `1..6` the enable bit `8 + channel`
of `PCR` is set exactly when one of those rows has the channel's bit set. -/
def registry_invariant (LPC_PWM1_BASE : Nat) (s : State) : Prop :=
  (∀ i, s.active_pwm_pins.testBit i = true → 6 ≤ i ∧ i < 24) ∧
  (∀ c, 1 ≤ c → c ≤ 6 →
    ((s.mem (PCR LPC_PWM1_BASE)).testBit (8 + c) = true ↔
      ∃ p, (1 ≤ p ∧ p ≤ 3) ∧ s.active_pwm_pins.testBit (p * 6 + (c - 1)) = true))

/-- The registry holds bits of the rows of ports 1..3 only: every set bit of
the bitset has an index in `6..23`. -/
def registry_rows_only (active_pwm_pins : Nat) : Prop :=
  ∀ i, active_pwm_pins.testBit i = true → 6 ≤ i ∧ i < 24

section
variable (LPC_PWM1_BASE : Nat)

/-- Attach the same pin with the same value `n` times in a row. -/
def attach_times (pin : pin_t) (value : Nat) : Nat → State → Option State
  | 0, s => some s
  | n + 1, s =>
    match pwm_hardware_attach LPC_PWM1_BASE s pin value with
    | some s1 => attach_times pin value n s1
    | none => none

end

/-! ## Ordered register writes -/

/-- The read-modify-write targets of `util::bit_set` / `util::bit_clear`. -/
inductive Reg where
  | active_pwm_pins
  | PCR
  | LER
deriving DecidableEq, Repr

/-- One write performed by a call, in the form the source states it: a plain
store to an address, a `util::bit_set` on a register, or the pin-mux call. -/
inductive Write where
  | store (addr value : Nat)
  | bit_set (reg : Reg) (bit : Nat)
  | enable_feature (pin : pin_t) (feature : Int)
deriving DecidableEq, Repr

section
variable (LPC_PWM1_BASE : Nat)

/-- Perform one write on a state. -/
def Write.apply (s : State) : Write → State
  | .store addr value => { s with mem := Function.update s.mem addr value }
  | .bit_set .active_pwm_pins bit =>
    { s with active_pwm_pins := util.bit_set s.active_pwm_pins bit }
  | .bit_set .PCR bit =>
    { s with mem := Function.update s.mem (PCR LPC_PWM1_BASE)
                      (util.bit_set (s.mem (PCR LPC_PWM1_BASE)) bit) }
  | .bit_set .LER bit =>
    { s with mem := Function.update s.mem (LER LPC_PWM1_BASE)
                      (util.bit_set (s.mem (LER LPC_PWM1_BASE)) bit) }
  | .enable_feature pin feature => pin_enable_feature s pin feature

/-- Perform a list of writes, first write first. -/
def apply_writes (s : State) (writes : List Write) : State :=
  writes.foldl (Write.apply LPC_PWM1_BASE) s


/-- The writes of `pwm_set_period`, in statement order. -/
def pwm_set_period_writes (period : Nat) : List Write :=
  [ .store (MR0 LPC_PWM1_BASE) ((((period : Int) - 1) % 4294967296).toNat),
    .bit_set .LER 0 ]

/-- The writes of `pwm_set_match`, in statement order. -/
def pwm_set_match_writes (pin : pin_t) (value : Nat) : List Write :=
  [ .store (pwm_match_lookup LPC_PWM1_BASE pin) value,
    .bit_set .LER (LPC1768_PIN_PWM pin) ]

end

/-- The writes of `pwm_activate_channel`, in statement order. -/
def pwm_activate_channel_writes (pin : pin_t) : List Write :=
  [ .bit_set .active_pwm_pins (pwm_pin_id pin),
    .bit_set .PCR (8 + LPC1768_PIN_PWM pin) ]

section
variable (LPC_PWM1_BASE : Nat)

/-- The writes of `pwm_hardware_attach`, in statement order: those of
`pwm_set_match`, then those of `pwm_activate_channel`, then the pin-mux call.
Undefined when the feature table is indexed out of range. -/
def pwm_hardware_attach_writes (pin : pin_t) (value : Nat) : Option (List Write) :=
  match pin_feature_pwm pin with
  | some feature =>
    some (pwm_set_match_writes LPC_PWM1_BASE pin value ++ pwm_activate_channel_writes pin
      ++ [.enable_feature pin feature])
  | none => none

end

/-! ## Evaluation steps of the activity queries -/

/-- A sub-expression evaluated by an activity query: the `uint32_t`
subtraction `LPC1768_PIN_PWM(pin) - 1`, a call of `pwm_pin_id`, a shift
`1 << amount` inside a bit helper, or the masking of the bitset. -/
inductive Eval where
  | channel_minus_one (result : Nat)
  | pwm_pin_id (result : Nat)
  | shift (amount : Nat)
  | bitset_mask (mask : Nat)
deriving DecidableEq, Repr

/-- Embedding of `pwm_pin_active` that also lists what was evaluated: the
right operand of `&&` is evaluated only when the channel is non-zero. -/
def pwm_pin_active_eval (active_pwm_pins : Nat) (pin : pin_t) : Bool × List Eval :=
  if LPC1768_PIN_PWM pin != 0 then
    (util.bit_test active_pwm_pins (pwm_pin_id pin),
      [.pwm_pin_id (pwm_pin_id pin), .shift (pwm_pin_id pin)])
  else (false, [])

/-- Embedding of `pwm_channel_active` that also lists what was evaluated: the
local `channel` is computed first, the right operand of `&&` (three shifts
and the mask) only when the channel is non-zero. -/
def pwm_channel_active_eval (active_pwm_pins : Nat) (pin : pin_t) : Bool × List Eval :=
  let channel : Nat := (((LPC1768_PIN_PWM pin : Int) - 1) % 4294967296).toNat
  if LPC1768_PIN_PWM pin != 0 then
    let mask := util.bitset_value ((6 + channel) % 4294967296)
      ((2 * 6 + channel) % 4294967296) ((3 * 6 + channel) % 4294967296)
    (util.bitset_mask active_pwm_pins mask != 0,
      [.channel_minus_one channel, .shift ((6 + channel) % 4294967296),
        .shift ((2 * 6 + channel) % 4294967296), .shift ((3 * 6 + channel) % 4294967296),
        .bitset_mask mask])
  else (false, [.channel_minus_one channel])

/-! ## Bit-level facts about the helpers -/

theorem two_pow_mod_word (b : Nat) (hb : b < 32) : (1 <<< b) % 4294967296 = 2 ^ b := by
  rw [Nat.one_shiftLeft]
  apply Nat.mod_eq_of_lt
  calc 2 ^ b < 2 ^ 32 := Nat.pow_lt_pow_right (by norm_num) hb
    _ = 4294967296 := by norm_num

theorem testBit_bit_set (v b i : Nat) (hb : b < 32) :
    (util.bit_set v b).testBit i = (v.testBit i || decide (i = b)) := by
  unfold util.bit_set
  rw [two_pow_mod_word b hb, Nat.testBit_or, Nat.testBit_two_pow]
  congr 1
  simp [eq_comm]

theorem testBit_bit_clear (v b i : Nat) (hb : b < 32) :
    (util.bit_clear v b).testBit i = (v.testBit i && (decide (i < 32) && !decide (i = b))) := by
  unfold util.bit_clear
  have h : (4294967295 : Nat) = 2 ^ 32 - 1 := by norm_num
  rw [two_pow_mod_word b hb, Nat.testBit_and, Nat.testBit_xor, Nat.testBit_two_pow, h,
    Nat.testBit_two_pow_sub_one]
  congr 1
  by_cases h2 : i = b
  · subst h2
    simp [hb]
  · have h3 : ¬ b = i := fun h3 => h2 h3.symm
    simp [h2, h3]

theorem bit_test_eq (v b : Nat) (hb : b < 32) : util.bit_test v b = v.testBit b := by
  unfold util.bit_test
  rw [two_pow_mod_word b hb]
  cases h : v.testBit b
  · simp
    apply Nat.eq_of_testBit_eq
    intro i
    rw [Nat.testBit_and, Nat.testBit_two_pow, Nat.zero_testBit]
    by_cases hi : b = i
    · subst hi; simp [h]
    · simp [hi]
  · simp
    intro h0
    have := congrArg (fun x => Nat.testBit x b) h0
    simp [Nat.testBit_two_pow, h] at this

theorem pwm_pin_id_eq (pin : pin_t) (hc : 1 ≤ pin.pwm) (h : pin.port * 6 + (pin.pwm - 1) < 256) :
    pwm_pin_id pin = pin.port * 6 + (pin.pwm - 1) := by
  unfold pwm_pin_id LPC1768_PIN_PORT LPC1768_PIN_PWM
  omega

theorem ne_zero_iff_exists_testBit (y : Nat) : y ≠ 0 ↔ ∃ i, y.testBit i = true := by
  constructor
  · exact Nat.ne_zero_implies_bit_true
  · rintro ⟨i, hi⟩ h0
    rw [h0, Nat.zero_testBit] at hi
    exact Bool.false_ne_true hi

theorem testBit_bitset_value (a b c i : Nat) (ha : a < 32) (hb : b < 32) (hc : c < 32) :
    (util.bitset_value a b c).testBit i = (decide (i = a) || decide (i = b) || decide (i = c)) := by
  unfold util.bitset_value
  rw [Nat.testBit_mod_two_pow _ 32 i, Nat.testBit_or, Nat.testBit_or, Nat.one_shiftLeft,
    Nat.one_shiftLeft, Nat.one_shiftLeft, Nat.testBit_two_pow, Nat.testBit_two_pow,
    Nat.testBit_two_pow]
  by_cases h1 : i = a
  · subst h1; simp [ha]
  · by_cases h2 : i = b
    · subst h2; simp [hb]
    · by_cases h3 : i = c
      · subst h3; simp [hc]
      · have h1' : ¬ a = i := fun h => h1 h.symm
        have h2' : ¬ b = i := fun h => h2 h.symm
        have h3' : ¬ c = i := fun h => h3 h.symm
        simp [h1, h2, h3, h1', h2', h3']

theorem bitset_mask_ne_zero (x a b c : Nat) (ha : a < 32) (hb : b < 32) (hc : c < 32) :
    (util.bitset_mask x (util.bitset_value a b c) != 0)
      = (x.testBit a || x.testBit b || x.testBit c) := by
  rw [Bool.eq_iff_iff]
  simp only [bne_iff_ne, Bool.or_eq_true]
  rw [ne_zero_iff_exists_testBit]
  unfold util.bitset_mask
  constructor
  · rintro ⟨i, hi⟩
    rw [Nat.testBit_and, testBit_bitset_value a b c i ha hb hc] at hi
    simp only [Bool.and_eq_true, Bool.or_eq_true, decide_eq_true_eq] at hi
    obtain ⟨hx, (h | h) | h⟩ := hi
    · subst h; exact Or.inl (Or.inl hx)
    · subst h; exact Or.inl (Or.inr hx)
    · subst h; exact Or.inr hx
  · rintro ((h | h) | h)
    · exact ⟨a, by rw [Nat.testBit_and, testBit_bitset_value a b c a ha hb hc]; simp [h]⟩
    · exact ⟨b, by rw [Nat.testBit_and, testBit_bitset_value a b c b ha hb hc]; simp [h]⟩
    · exact ⟨c, by rw [Nat.testBit_and, testBit_bitset_value a b c c ha hb hc]; simp [h]⟩

theorem pwm_channel_active_eq (a : Nat) (pin : pin_t) (h1 : 1 ≤ pin.pwm) (h6 : pin.pwm ≤ 6) :
    pwm_channel_active a pin
      = (a.testBit (6 + (pin.pwm - 1)) || a.testBit (12 + (pin.pwm - 1))
          || a.testBit (18 + (pin.pwm - 1))) := by
  unfold pwm_channel_active LPC1768_PIN_PWM
  have hch : (((pin.pwm : Int) - 1) % 4294967296).toNat = pin.pwm - 1 := by omega
  have hne : (pin.pwm != 0) = true := by
    rw [bne_iff_ne]; omega
  simp only [hch, hne, Bool.true_and]
  have e1 : (6 + (pin.pwm - 1)) % 4294967296 = 6 + (pin.pwm - 1) := by omega
  have e2 : (2 * 6 + (pin.pwm - 1)) % 4294967296 = 12 + (pin.pwm - 1) := by omega
  have e3 : (3 * 6 + (pin.pwm - 1)) % 4294967296 = 18 + (pin.pwm - 1) := by omega
  rw [e1, e2, e3]
  exact bitset_mask_ne_zero a _ _ _ (by omega) (by omega) (by omega)

theorem pwm_pin_active_eq (a : Nat) (pin : pin_t) (h1 : 1 ≤ pin.pwm) (h6 : pin.pwm ≤ 6)
    (hp : pin.port ≤ 4) :
    pwm_pin_active a pin = a.testBit (pin.port * 6 + (pin.pwm - 1)) := by
  unfold pwm_pin_active
  have hne : (LPC1768_PIN_PWM pin != 0) = true := by
    unfold LPC1768_PIN_PWM
    rw [bne_iff_ne]; omega
  rw [hne, Bool.true_and, pwm_pin_id_eq pin h1 (by omega), bit_test_eq _ _ (by omega)]

/-! ## Pin ids and register addresses -/

/-- C8: for a port in `0..4` and a channel in `1..6`, `pwm_pin_id` returns
`port * 6 + (channel - 1)`, the value is at most 29, and two such pins with the
same id have the same port and the same channel. -/
theorem pwm_pin_id_range_injective (p q : pin_t)
    (hp : p.port ≤ 4) (hp1 : 1 ≤ p.pwm) (hp6 : p.pwm ≤ 6)
    (hq : q.port ≤ 4) (hq1 : 1 ≤ q.pwm) (hq6 : q.pwm ≤ 6) :
    pwm_pin_id p = p.port * 6 + (p.pwm - 1) ∧ pwm_pin_id p ≤ 29 ∧
      (pwm_pin_id p = pwm_pin_id q → p.port = q.port ∧ p.pwm = q.pwm) := by
  rw [pwm_pin_id_eq p hp1 (by omega), pwm_pin_id_eq q hq1 (by omega)]
  refine ⟨rfl, by omega, fun h => by omega⟩

/-- Witness for C8: the pins (port 4, channel 6) and (port 0, channel 1) are in
range; the first has the largest id, 29, the second the smallest, 0. -/
theorem pwm_pin_id_range_injective_witness :
    pwm_pin_id ⟨4, 6⟩ = 4 * 6 + (6 - 1) ∧ pwm_pin_id ⟨4, 6⟩ ≤ 29 ∧
      pwm_pin_id ⟨4, 6⟩ ≠ pwm_pin_id ⟨0, 1⟩ :=
  have h := pwm_pin_id_range_injective ⟨4, 6⟩ ⟨0, 1⟩ (by decide) (by decide) (by decide)
    (by decide) (by decide) (by decide)
  ⟨h.1, h.2.1, fun heq => absurd (h.2.2 heq).1 (by decide)⟩

/-- C9 (the code at the failing inputs): the high block does not start at
`MR4_OFFSET`.  Channels 4, 5 and 6 are placed at offsets 80, 84 and 88 from
the base, not at 64, 68 and 72. -/
theorem pwm_match_lookup_high_block (LPC_PWM1_BASE port : Nat) :
    pwm_match_lookup LPC_PWM1_BASE ⟨port, 4⟩ = (LPC_PWM1_BASE + 80) % 4294967296 ∧
    pwm_match_lookup LPC_PWM1_BASE ⟨port, 5⟩ = (LPC_PWM1_BASE + 84) % 4294967296 ∧
    pwm_match_lookup LPC_PWM1_BASE ⟨port, 6⟩ = (LPC_PWM1_BASE + 88) % 4294967296 ∧
    pwm_match_lookup LPC_PWM1_BASE ⟨port, 4⟩ ≠ (LPC_PWM1_BASE + 64) % 4294967296 ∧
    pwm_match_lookup LPC_PWM1_BASE ⟨port, 5⟩ ≠ (LPC_PWM1_BASE + 68) % 4294967296 ∧
    pwm_match_lookup LPC_PWM1_BASE ⟨port, 6⟩ ≠ (LPC_PWM1_BASE + 72) % 4294967296 := by
  simp only [pwm_match_lookup, LPC1768_PIN_PWM, MR0_OFFSET, MR4_OFFSET]
  refine ⟨?_, ?_, ?_, ?_, ?_, ?_⟩ <;> norm_num <;> omega

/-- C10: for a channel `c` in `0..6` (and a register block that lies inside
the 32-bit address space) `pwm_match_lookup` is
`LPC_PWM1_BASE + (24 if c ≤ 3, 64 otherwise) + 4 * c`, and any other pin with
the same channel, whatever its port, gets the same address. -/
theorem pwm_match_lookup_formula (LPC_PWM1_BASE : Nat) (pin : pin_t)
    (hbase : LPC_PWM1_BASE + 88 < 4294967296) (hc : pin.pwm ≤ 6) :
    pwm_match_lookup LPC_PWM1_BASE pin
        = LPC_PWM1_BASE + (if pin.pwm ≤ 3 then 24 else 64) + 4 * pin.pwm ∧
      ∀ q : pin_t, q.pwm = pin.pwm →
        pwm_match_lookup LPC_PWM1_BASE q = pwm_match_lookup LPC_PWM1_BASE pin := by
  constructor
  · simp only [pwm_match_lookup, LPC1768_PIN_PWM, MR0_OFFSET, MR4_OFFSET]
    split <;> split <;> omega
  · intro q hq
    simp only [pwm_match_lookup, LPC1768_PIN_PWM, hq]

/-- Witness for C10: base `0x40018000`, pin (port 2, channel 5). -/
theorem pwm_match_lookup_formula_witness :
    pwm_match_lookup 0x40018000 ⟨2, 5⟩ = 0x40018000 + (if 5 ≤ 3 then 24 else 64) + 4 * 5 ∧
      pwm_match_lookup 0x40018000 ⟨1, 5⟩ = pwm_match_lookup 0x40018000 ⟨2, 5⟩ :=
  have h := pwm_match_lookup_formula 0x40018000 ⟨2, 5⟩ (by decide) (by decide)
  ⟨h.1, h.2 ⟨1, 5⟩ rfl⟩

/-! ## Activity queries -/

/-- C4 (counterexample): `pwm_channel_active` is not the OR of
`pwm_pin_active` over all five ports.  With only bit 0 set (port 0,
channel 1) the pin (port 0, channel 1) is active, so the OR is true, while
`pwm_channel_active` answers false. -/
theorem pwm_channel_active_not_or_of_five_ports :
    ¬ ∀ (active_pwm_pins : Nat) (pin : pin_t), 1 ≤ pin.pwm → pin.pwm ≤ 6 →
        pwm_channel_active active_pwm_pins pin = any_port_active active_pwm_pins pin.pwm := by
  intro h
  have h01 := h 1 ⟨0, 1⟩ (by decide) (by decide)
  revert h01
  decide

/-- C4 (amended): for a channel in `1..6`, `pwm_channel_active` is the logical
OR of `pwm_pin_active` over the ports 1, 2 and 3 for that channel; the bits of
ports 0 and 4 are not consulted. -/
theorem pwm_channel_active_or_of_ports_1_2_3 (active_pwm_pins : Nat) (pin : pin_t)
    (h1 : 1 ≤ pin.pwm) (h6 : pin.pwm ≤ 6) :
    pwm_channel_active active_pwm_pins pin
      = (pwm_pin_active active_pwm_pins ⟨1, pin.pwm⟩
          || pwm_pin_active active_pwm_pins ⟨2, pin.pwm⟩
          || pwm_pin_active active_pwm_pins ⟨3, pin.pwm⟩) := by
  rw [pwm_channel_active_eq _ _ h1 h6,
    pwm_pin_active_eq _ ⟨1, pin.pwm⟩ h1 h6 (Nat.le_of_ble_eq_true rfl),
    pwm_pin_active_eq _ ⟨2, pin.pwm⟩ h1 h6 (Nat.le_of_ble_eq_true rfl),
    pwm_pin_active_eq _ ⟨3, pin.pwm⟩ h1 h6 (Nat.le_of_ble_eq_true rfl)]
  rfl

/-- Witness for C4 (amended): bitset with bit 14 (port 2, channel 3) set,
queried through the pin (port 1, channel 3). -/
theorem pwm_channel_active_or_of_ports_1_2_3_witness :
    pwm_channel_active 16384 ⟨1, 3⟩
      = (pwm_pin_active 16384 ⟨1, 3⟩ || pwm_pin_active 16384 ⟨2, 3⟩
          || pwm_pin_active 16384 ⟨3, 3⟩) :=
  pwm_channel_active_or_of_ports_1_2_3 16384 ⟨1, 3⟩ (by decide) (by decide)

/-! ## Register writes -/

theorem pwm_match_lookup_ne (LPC_PWM1_BASE : Nat) (p q : pin_t)
    (hp : p.pwm ≤ 6) (hq : q.pwm ≤ 6) (hne : q.pwm ≠ p.pwm) :
    pwm_match_lookup LPC_PWM1_BASE q ≠ pwm_match_lookup LPC_PWM1_BASE p := by
  simp only [pwm_match_lookup, LPC1768_PIN_PWM, MR0_OFFSET, MR4_OFFSET]
  split <;> split <;> omega

theorem pwm_match_lookup_ne_MR0 (LPC_PWM1_BASE : Nat) (p : pin_t)
    (hp1 : 1 ≤ p.pwm) (hp : p.pwm ≤ 6) :
    MR0 LPC_PWM1_BASE ≠ pwm_match_lookup LPC_PWM1_BASE p := by
  simp only [MR0, pwm_match_lookup, LPC1768_PIN_PWM, MR0_OFFSET, MR4_OFFSET]
  split <;> omega

theorem pwm_match_lookup_ne_PCR (LPC_PWM1_BASE : Nat) (p : pin_t) (hp : p.pwm ≤ 6) :
    PCR LPC_PWM1_BASE ≠ pwm_match_lookup LPC_PWM1_BASE p := by
  simp only [PCR, PCR_OFFSET, pwm_match_lookup, LPC1768_PIN_PWM, MR0_OFFSET, MR4_OFFSET]
  split <;> omega

theorem pwm_match_lookup_eq_LER_iff (LPC_PWM1_BASE : Nat) (p : pin_t) (hp : p.pwm ≤ 6) :
    pwm_match_lookup LPC_PWM1_BASE p = LER LPC_PWM1_BASE ↔ p.pwm = 4 := by
  simp only [LER, LER_OFFSET, pwm_match_lookup, LPC1768_PIN_PWM, MR0_OFFSET, MR4_OFFSET]
  split <;> omega

theorem PCR_ne_LER (LPC_PWM1_BASE : Nat) : PCR LPC_PWM1_BASE ≠ LER LPC_PWM1_BASE := by
  simp only [PCR, PCR_OFFSET, LER, LER_OFFSET]
  omega

theorem PCR_ne_MR0 (LPC_PWM1_BASE : Nat) : PCR LPC_PWM1_BASE ≠ MR0 LPC_PWM1_BASE := by
  simp only [PCR, PCR_OFFSET, MR0, MR0_OFFSET]
  omega

theorem MR0_ne_LER (LPC_PWM1_BASE : Nat) : MR0 LPC_PWM1_BASE ≠ LER LPC_PWM1_BASE := by
  simp only [MR0, MR0_OFFSET, LER, LER_OFFSET]
  omega

theorem match_register_ne (LPC_PWM1_BASE c : Nat) (h1 : 1 ≤ c) (h6 : c ≤ 6) :
    match_register LPC_PWM1_BASE c ≠ MR0 LPC_PWM1_BASE ∧
    match_register LPC_PWM1_BASE c ≠ LER LPC_PWM1_BASE ∧
    match_register LPC_PWM1_BASE c ≠ PCR LPC_PWM1_BASE := by
  simp only [match_register, MR0, MR0_OFFSET, MR4_OFFSET, LER, LER_OFFSET, PCR, PCR_OFFSET]
  split <;> omega

/-- The words of memory after `pwm_set_match`: `LER` is read after the store,
so when the store address is `LER` itself the latch bit is ORed into the
stored value. -/
theorem pwm_set_match_mem (LPC_PWM1_BASE : Nat) (s : State) (pin : pin_t) (value x : Nat) :
    (pwm_set_match LPC_PWM1_BASE s pin value).mem x
      = if x = LER LPC_PWM1_BASE then
          util.bit_set
            (if LER LPC_PWM1_BASE = pwm_match_lookup LPC_PWM1_BASE pin then value
              else s.mem (LER LPC_PWM1_BASE)) pin.pwm
        else if x = pwm_match_lookup LPC_PWM1_BASE pin then value
        else s.mem x := by
  simp only [pwm_set_match, LPC1768_PIN_PWM, Function.update_apply]

theorem pwm_set_match_mem_other (LPC_PWM1_BASE : Nat) (s : State) (pin : pin_t)
    (value x : Nat) (h1 : x ≠ pwm_match_lookup LPC_PWM1_BASE pin)
    (h2 : x ≠ LER LPC_PWM1_BASE) :
    (pwm_set_match LPC_PWM1_BASE s pin value).mem x = s.mem x := by
  rw [pwm_set_match_mem, if_neg h2, if_neg h1]

theorem pwm_set_match_PCR (LPC_PWM1_BASE : Nat) (s : State) (pin : pin_t) (value : Nat)
    (h6 : pin.pwm ≤ 6) :
    (pwm_set_match LPC_PWM1_BASE s pin value).mem (PCR LPC_PWM1_BASE)
      = s.mem (PCR LPC_PWM1_BASE) :=
  pwm_set_match_mem_other LPC_PWM1_BASE s pin value _
    (pwm_match_lookup_ne_PCR LPC_PWM1_BASE pin h6) (PCR_ne_LER LPC_PWM1_BASE)

/-- The words of memory after `pwm_set_period`. -/
theorem pwm_set_period_mem (LPC_PWM1_BASE : Nat) (s : State) (period x : Nat) :
    (pwm_set_period LPC_PWM1_BASE s period).mem x
      = if x = LER LPC_PWM1_BASE then util.bit_set (s.mem (LER LPC_PWM1_BASE)) 0
        else if x = MR0 LPC_PWM1_BASE then (((period : Int) - 1) % 4294967296).toNat
        else s.mem x := by
  simp only [pwm_set_period, Function.update_apply,
    if_neg (MR0_ne_LER LPC_PWM1_BASE).symm]

/-- C6 (the code at the failing input): on a channel-4 pin the address
`pwm_match_lookup` gives is the address of `LER`.  `pwm_set_match` stores the
value over `LER` and then ORs latch bit 4 into it, so the word holds
`value | 16`, not `value`; the earlier content of `LER` is lost, and the match
register of channel 4 is not written.  With `LER = 9` and value 1000 the word
ends as 1016, where the claim has 1000 in the match register and 25 in `LER`.
A call on another channel (here channel 3) changes the word that
`pwm_match_lookup` gives channel 4. -/
theorem pwm_set_match_channel_4_overwrites_LER (LPC_PWM1_BASE : Nat) (s : State)
    (port value : Nat) :
    pwm_match_lookup LPC_PWM1_BASE ⟨port, 4⟩ = LER LPC_PWM1_BASE ∧
    (pwm_set_match LPC_PWM1_BASE s ⟨port, 4⟩ value).mem (pwm_match_lookup LPC_PWM1_BASE ⟨port, 4⟩)
      = value ||| 16 ∧
    (pwm_set_match LPC_PWM1_BASE s ⟨port, 4⟩ value).mem (match_register LPC_PWM1_BASE 4)
      = s.mem (match_register LPC_PWM1_BASE 4) ∧
    (pwm_set_match LPC_PWM1_BASE s ⟨port, 3⟩ value).mem (pwm_match_lookup LPC_PWM1_BASE ⟨port, 4⟩)
      = s.mem (pwm_match_lookup LPC_PWM1_BASE ⟨port, 4⟩) ||| 8 ∧
    (pwm_set_match 0x40018000 State.latch_pending ⟨1, 4⟩ 1000).mem
        (pwm_match_lookup 0x40018000 ⟨1, 4⟩) = 1016 ∧
    (pwm_set_match 0x40018000 State.latch_pending ⟨1, 4⟩ 1000).mem (LER 0x40018000) = 1016 ∧
    State.latch_pending.mem (LER 0x40018000) = 9 := by
  have h4 : pwm_match_lookup LPC_PWM1_BASE ⟨port, 4⟩ = LER LPC_PWM1_BASE :=
    (pwm_match_lookup_eq_LER_iff LPC_PWM1_BASE ⟨port, 4⟩ (Nat.le_of_ble_eq_true rfl)).2 rfl
  have h3 : LER LPC_PWM1_BASE ≠ pwm_match_lookup LPC_PWM1_BASE ⟨port, 3⟩ := by
    intro h
    have h34 : (3 : Nat) = 4 :=
      (pwm_match_lookup_eq_LER_iff LPC_PWM1_BASE ⟨port, 3⟩ (Nat.le_of_ble_eq_true rfl)).1 h.symm
    exact absurd h34 (by decide)
  refine ⟨h4, ?_, ?_, ?_, by decide, by decide, by decide⟩
  · rw [pwm_set_match_mem, h4, if_pos rfl, if_pos rfl]
    rfl
  · obtain ⟨_, hler, _⟩ := match_register_ne LPC_PWM1_BASE 4 (by decide) (by decide)
    exact pwm_set_match_mem_other LPC_PWM1_BASE s ⟨port, 4⟩ value _ (h4 ▸ hler) hler
  · rw [pwm_set_match_mem, h4, if_pos rfl, if_neg h3]
    rfl

/-- C7: for a period `p ≥ 1` (a `uint32_t` value) `pwm_set_period` stores
`p - 1` in `MR0`, sets latch bit 0 of `LER` and keeps every other `LER` bit,
and changes no other word of memory: the match register of every channel
`1..6` and `PCR` keep their values, and so does the bitset.  Of the addresses
`pwm_match_lookup` computes, only the one for channel 4 is touched, being the
address of `LER`. -/
theorem pwm_set_period_spec (LPC_PWM1_BASE : Nat) (s : State) (period : Nat)
    (hp1 : 1 ≤ period) (hp32 : period < 4294967296) :
    (pwm_set_period LPC_PWM1_BASE s period).mem (MR0 LPC_PWM1_BASE) = period - 1 ∧
    (∀ i, ((pwm_set_period LPC_PWM1_BASE s period).mem (LER LPC_PWM1_BASE)).testBit i
          = ((s.mem (LER LPC_PWM1_BASE)).testBit i || decide (i = 0))) ∧
    (∀ addr, addr ≠ MR0 LPC_PWM1_BASE → addr ≠ LER LPC_PWM1_BASE →
      (pwm_set_period LPC_PWM1_BASE s period).mem addr = s.mem addr) ∧
    (∀ c, 1 ≤ c → c ≤ 6 →
      (pwm_set_period LPC_PWM1_BASE s period).mem (match_register LPC_PWM1_BASE c)
        = s.mem (match_register LPC_PWM1_BASE c)) ∧
    (∀ q : pin_t, 1 ≤ q.pwm → q.pwm ≤ 6 → q.pwm ≠ 4 →
      (pwm_set_period LPC_PWM1_BASE s period).mem (pwm_match_lookup LPC_PWM1_BASE q)
        = s.mem (pwm_match_lookup LPC_PWM1_BASE q)) ∧
    (pwm_set_period LPC_PWM1_BASE s period).active_pwm_pins = s.active_pwm_pins ∧
    (pwm_set_period LPC_PWM1_BASE s period).mem (PCR LPC_PWM1_BASE)
      = s.mem (PCR LPC_PWM1_BASE) := by
  have hother : ∀ addr, addr ≠ MR0 LPC_PWM1_BASE → addr ≠ LER LPC_PWM1_BASE →
      (pwm_set_period LPC_PWM1_BASE s period).mem addr = s.mem addr := by
    intro addr h1 h2
    rw [pwm_set_period_mem, if_neg h2, if_neg h1]
  refine ⟨?_, ?_, hother, ?_, ?_, rfl, ?_⟩
  · rw [pwm_set_period_mem, if_neg (MR0_ne_LER LPC_PWM1_BASE), if_pos rfl]
    omega
  · intro i
    rw [pwm_set_period_mem, if_pos rfl]
    exact testBit_bit_set _ _ _ (by omega)
  · intro c hc1 hc6
    obtain ⟨h1, h2, _⟩ := match_register_ne LPC_PWM1_BASE c hc1 hc6
    exact hother _ h1 h2
  · intro q hq1 hq6 hq4
    apply hother _ (pwm_match_lookup_ne_MR0 LPC_PWM1_BASE q hq1 hq6).symm
    intro h
    exact hq4 ((pwm_match_lookup_eq_LER_iff LPC_PWM1_BASE q hq6).1 h)
  · exact hother _ (PCR_ne_MR0 LPC_PWM1_BASE) (PCR_ne_LER LPC_PWM1_BASE)

/-- Witness for C7: period 1000 on the reset state with base `0x40018000`
stores 999 in `MR0` and leaves the match register of channel 4 (at
`base + 64`) and `PCR` as they were. -/
theorem pwm_set_period_spec_witness :
    (1 ≤ 1000 ∧ 1000 < 4294967296) ∧
    (pwm_set_period 0x40018000 State.reset 1000).mem (MR0 0x40018000) = 1000 - 1 ∧
    (pwm_set_period 0x40018000 State.reset 1000).mem (match_register 0x40018000 4)
      = State.reset.mem (match_register 0x40018000 4) ∧
    (pwm_set_period 0x40018000 State.reset 1000).mem (PCR 0x40018000)
      = State.reset.mem (PCR 0x40018000) :=
  have h := pwm_set_period_spec 0x40018000 State.reset 1000 (by decide) (by decide)
  ⟨⟨by decide, by decide⟩, h.1, h.2.2.2.1 4 (by decide) (by decide), h.2.2.2.2.2.2⟩

/-! ## Attach and detach -/

theorem pin_feature_pwm_some (pin : pin_t) (hp : pin.port ≤ 4) :
    ∃ feature, pin_feature_pwm pin = some feature := by
  obtain ⟨port, c⟩ := pin
  simp only at hp
  interval_cases port <;> exact ⟨_, rfl⟩

theorem pwm_hardware_attach_eq (LPC_PWM1_BASE : Nat) (s : State) (pin : pin_t) (value : Nat)
    (feature : Int) (hf : pin_feature_pwm pin = some feature) :
    pwm_hardware_attach LPC_PWM1_BASE s pin value
      = some (pin_enable_feature
          (pwm_activate_channel LPC_PWM1_BASE (pwm_set_match LPC_PWM1_BASE s pin value) pin)
          pin feature) := by
  simp only [pwm_hardware_attach, hf]

theorem pwm_activate_channel_mem (LPC_PWM1_BASE : Nat) (s : State) (pin : pin_t) (x : Nat) :
    (pwm_activate_channel LPC_PWM1_BASE s pin).mem x
      = if x = PCR LPC_PWM1_BASE then util.bit_set (s.mem (PCR LPC_PWM1_BASE)) (8 + pin.pwm)
        else s.mem x := by
  simp only [pwm_activate_channel, LPC1768_PIN_PWM, Function.update_apply]

/-- The words of memory after `pwm_hardware_attach` on a pin with channel in
`0..6`: `PCR` gains the enable bit, every other word is as `pwm_set_match`
left it. -/
theorem pwm_hardware_attach_mem (LPC_PWM1_BASE : Nat) (s s' : State) (pin : pin_t)
    (value : Nat) (h6 : pin.pwm ≤ 6)
    (h : pwm_hardware_attach LPC_PWM1_BASE s pin value = some s') (x : Nat) :
    s'.mem x
      = if x = PCR LPC_PWM1_BASE then util.bit_set (s.mem (PCR LPC_PWM1_BASE)) (8 + pin.pwm)
        else (pwm_set_match LPC_PWM1_BASE s pin value).mem x := by
  cases hf : pin_feature_pwm pin with
  | none => simp [pwm_hardware_attach, hf] at h
  | some feature =>
    rw [pwm_hardware_attach_eq LPC_PWM1_BASE s pin value feature hf] at h
    rw [← Option.some.inj h]
    show (pwm_activate_channel LPC_PWM1_BASE (pwm_set_match LPC_PWM1_BASE s pin value) pin).mem x
      = _
    rw [pwm_activate_channel_mem, pwm_set_match_PCR LPC_PWM1_BASE s pin value h6]

theorem pwm_deactivate_channel_active (LPC_PWM1_BASE : Nat) (s : State) (pin : pin_t) :
    (pwm_deactivate_channel LPC_PWM1_BASE s pin).active_pwm_pins
      = util.bit_clear s.active_pwm_pins (pwm_pin_id pin) := by
  unfold pwm_deactivate_channel
  dsimp only
  split <;> rfl

theorem pwm_deactivate_channel_PCR (LPC_PWM1_BASE : Nat) (s : State) (pin : pin_t) :
    (pwm_deactivate_channel LPC_PWM1_BASE s pin).mem (PCR LPC_PWM1_BASE)
      = if pwm_channel_active (util.bit_clear s.active_pwm_pins (pwm_pin_id pin)) pin
        then s.mem (PCR LPC_PWM1_BASE)
        else util.bit_clear (s.mem (PCR LPC_PWM1_BASE)) (8 + pin.pwm) := by
  unfold pwm_deactivate_channel
  dsimp only
  cases h : pwm_channel_active (util.bit_clear s.active_pwm_pins (pwm_pin_id pin)) pin <;>
    simp [LPC1768_PIN_PWM]

theorem pwm_deactivate_channel_mem_other (LPC_PWM1_BASE : Nat) (s : State) (pin : pin_t)
    (x : Nat) (hx : x ≠ PCR LPC_PWM1_BASE) :
    (pwm_deactivate_channel LPC_PWM1_BASE s pin).mem x = s.mem x := by
  unfold pwm_deactivate_channel
  dsimp only
  split
  · simp only [Function.update_apply, if_neg hx]
  · rfl

/-- Attach postcondition on the channels whose `pwm_match_lookup` address is
not the address of `LER` (channels 1, 2, 3, 5 and 6). -/
theorem pwm_hardware_attach_post_unaliased (LPC_PWM1_BASE : Nat) (s : State) (pin : pin_t)
    (value : Nat) (hp : pin.port ≤ 4) (h1 : 1 ≤ pin.pwm) (h6 : pin.pwm ≤ 6)
    (h4 : pin.pwm ≠ 4) :
    ∃ (s' : State) (feature : Int),
      pwm_hardware_attach LPC_PWM1_BASE s pin value = some s' ∧
      pin_feature_pwm pin = some feature ∧
      s'.active_pwm_pins.testBit (pin.port * 6 + (pin.pwm - 1)) = true ∧
      pwm_pin_active s'.active_pwm_pins pin = true ∧
      s'.mem (pwm_match_lookup LPC_PWM1_BASE pin) = value ∧
      (s'.mem (LER LPC_PWM1_BASE)).testBit pin.pwm = true ∧
      (s'.mem (PCR LPC_PWM1_BASE)).testBit (8 + pin.pwm) = true ∧
      s'.pinsel pin = feature := by
  obtain ⟨feature, hf⟩ := pin_feature_pwm_some pin hp
  have hs := pwm_hardware_attach_eq LPC_PWM1_BASE s pin value feature hf
  have hmem := pwm_hardware_attach_mem LPC_PWM1_BASE s _ pin value h6 hs
  have hne : pwm_match_lookup LPC_PWM1_BASE pin ≠ LER LPC_PWM1_BASE := fun h =>
    h4 ((pwm_match_lookup_eq_LER_iff LPC_PWM1_BASE pin h6).1 h)
  have hbit : (util.bit_set s.active_pwm_pins (pwm_pin_id pin)).testBit
      (pin.port * 6 + (pin.pwm - 1)) = true := by
    rw [pwm_pin_id_eq pin h1 (by omega), testBit_bit_set _ _ _ (by omega)]
    simp
  refine ⟨_, feature, hs, hf, hbit, ?_, ?_, ?_, ?_, ?_⟩
  · rw [pwm_pin_active_eq _ pin h1 h6 hp]
    exact hbit
  · rw [hmem, if_neg (pwm_match_lookup_ne_PCR LPC_PWM1_BASE pin h6).symm, pwm_set_match_mem,
      if_neg hne, if_pos rfl]
  · rw [hmem, if_neg (PCR_ne_LER LPC_PWM1_BASE).symm, pwm_set_match_mem, if_pos rfl,
      testBit_bit_set _ _ _ (by omega)]
    simp
  · rw [hmem, if_pos rfl, testBit_bit_set _ _ _ (by omega)]
    simp
  · simp [pin_enable_feature]

/-- C5 (the code at the failing input): `pwm_hardware_attach` on a channel-4
pin returns a state in which the word at `pwm_match_lookup(pin)`, which is
`LER`, holds `value | 16` and not the value, while the match register of
channel 4 is not written; the registry bit and `PCR` bit 12 are set as
claimed.  On the reset state with value 1000 the word holds 1016. -/
theorem pwm_hardware_attach_channel_4_value_lost (LPC_PWM1_BASE : Nat) (s : State)
    (value : Nat) :
    (∃ s' : State,
      pwm_hardware_attach LPC_PWM1_BASE s ⟨1, 4⟩ value = some s' ∧
      pwm_match_lookup LPC_PWM1_BASE ⟨1, 4⟩ = LER LPC_PWM1_BASE ∧
      s'.mem (pwm_match_lookup LPC_PWM1_BASE ⟨1, 4⟩) = value ||| 16 ∧
      s'.mem (match_register LPC_PWM1_BASE 4) = s.mem (match_register LPC_PWM1_BASE 4) ∧
      pwm_pin_active s'.active_pwm_pins ⟨1, 4⟩ = true ∧
      (s'.mem (PCR LPC_PWM1_BASE)).testBit 12 = true) ∧
    (∃ s' : State,
      pwm_hardware_attach 0x40018000 State.reset ⟨1, 4⟩ 1000 = some s' ∧
      s'.mem (pwm_match_lookup 0x40018000 ⟨1, 4⟩) = 1016) := by
  have h4 : pwm_match_lookup LPC_PWM1_BASE ⟨1, 4⟩ = LER LPC_PWM1_BASE :=
    (pwm_match_lookup_eq_LER_iff LPC_PWM1_BASE ⟨1, 4⟩ (by decide)).2 rfl
  have hs := pwm_hardware_attach_eq LPC_PWM1_BASE s ⟨1, 4⟩ value 2 rfl
  have hmem := pwm_hardware_attach_mem LPC_PWM1_BASE s _ ⟨1, 4⟩ value (by decide) hs
  obtain ⟨_, hler, hpcr⟩ := match_register_ne LPC_PWM1_BASE 4 (by decide) (by decide)
  refine ⟨⟨_, hs, h4, ?_, ?_, ?_, ?_⟩, ⟨_, rfl, by decide⟩⟩
  · rw [hmem, h4, if_neg (PCR_ne_LER LPC_PWM1_BASE).symm, pwm_set_match_mem, if_pos rfl,
      ← h4, if_pos rfl]
    rfl
  · rw [hmem, if_neg hpcr]
    exact pwm_set_match_mem_other LPC_PWM1_BASE s ⟨1, 4⟩ value _ (h4 ▸ hler) hler
  · rw [pwm_pin_active_eq _ ⟨1, 4⟩ (by decide) (by decide) (by decide)]
    show (util.bit_set s.active_pwm_pins (pwm_pin_id ⟨1, 4⟩)).testBit (1 * 6 + (4 - 1)) = true
    rw [pwm_pin_id_eq ⟨1, 4⟩ (by decide) (by decide), testBit_bit_set _ _ _ (by decide)]
    simp
  · rw [hmem, if_pos rfl]
    show (util.bit_set (s.mem (PCR LPC_PWM1_BASE)) 12).testBit 12 = true
    rw [testBit_bit_set _ _ _ (by decide)]
    simp

/-- C2: when no other port has its registry bit set for the pin's channel `c`
(port in `0..4`, `c` in `1..6`), `pwm_deactivate_channel` leaves the pin's own
registry bit `port * 6 + (c - 1)` clear and clears `PCR` bit `8 + c`. -/
theorem pwm_deactivate_channel_sole_owner (LPC_PWM1_BASE : Nat) (s : State) (pin : pin_t)
    (hp : pin.port ≤ 4) (h1 : 1 ≤ pin.pwm) (h6 : pin.pwm ≤ 6)
    (hsole : ∀ p, p ≤ 4 → p ≠ pin.port →
      s.active_pwm_pins.testBit (p * 6 + (pin.pwm - 1)) = false) :
    (pwm_deactivate_channel LPC_PWM1_BASE s pin).active_pwm_pins.testBit (pin.port * 6 + (pin.pwm -
        1)) = false ∧
    pwm_pin_active (pwm_deactivate_channel LPC_PWM1_BASE s pin).active_pwm_pins pin = false ∧
    ((pwm_deactivate_channel LPC_PWM1_BASE s pin).mem (PCR LPC_PWM1_BASE)).testBit (8 + pin.pwm)
      = false := by
  have hown : (util.bit_clear s.active_pwm_pins (pwm_pin_id pin)).testBit
      (pin.port * 6 + (pin.pwm - 1)) = false := by
    rw [pwm_pin_id_eq pin h1 (by omega), testBit_bit_clear _ _ _ (by omega)]
    simp
  have hoff : pwm_channel_active (util.bit_clear s.active_pwm_pins (pwm_pin_id pin)) pin
      = false := by
    rw [pwm_channel_active_eq _ pin h1 h6, pwm_pin_id_eq pin h1 (by omega)]
    have hrow : ∀ p, 1 ≤ p → p ≤ 3 →
        (util.bit_clear s.active_pwm_pins (pin.port * 6 + (pin.pwm - 1))).testBit
          (p * 6 + (pin.pwm - 1)) = false := by
      intro p hp1 hp3
      rw [testBit_bit_clear _ _ _ (by omega)]
      by_cases hpp : p = pin.port
      · subst hpp; simp
      · rw [hsole p (by omega) hpp]; simp
    have r1 := hrow 1 (by omega) (by omega)
    have r2 := hrow 2 (by omega) (by omega)
    have r3 := hrow 3 (by omega) (by omega)
    simp only [Nat.one_mul] at r1
    norm_num at r2 r3
    rw [r1, r2, r3]
    rfl
  refine ⟨?_, ?_, ?_⟩
  · rw [pwm_deactivate_channel_active]; exact hown
  · rw [pwm_pin_active_eq _ pin h1 h6 hp, pwm_deactivate_channel_active]; exact hown
  · rw [pwm_deactivate_channel_PCR, hoff]
    simp only [Bool.false_eq_true, if_false]
    rw [testBit_bit_clear _ _ _ (by omega)]
    simp

/-- Witness for C2: the pin (port 1, channel 3) attached alone on the reset
state and then detached ends with registry bit 8 clear and the channel-3
enable bit (`PCR` bit 11) clear. -/
theorem pwm_deactivate_channel_sole_owner_witness :
    pwm_hardware_attach 0x40018000 State.reset ⟨1, 3⟩ 500 = some State.attached_1_3 ∧
    State.attached_1_3.active_pwm_pins.testBit 8 = true ∧
    (State.attached_1_3.mem (PCR 0x40018000)).testBit 11 = true ∧
    (pwm_deactivate_channel 0x40018000 State.attached_1_3 ⟨1, 3⟩).active_pwm_pins.testBit 8
      = false ∧
    ((pwm_deactivate_channel 0x40018000 State.attached_1_3 ⟨1, 3⟩).mem (PCR 0x40018000)).testBit 11
      = false :=
  have h := pwm_deactivate_channel_sole_owner 0x40018000 State.attached_1_3 ⟨1, 3⟩
    (by decide) (by decide) (by decide) (by decide)
  ⟨rfl, by decide, by decide, h.1, h.2.2⟩

/-! ## Shared channels -/

theorem pin_prevalidated_iff (pin : pin_t) :
    pin_prevalidated pin = true ↔
      (1 ≤ pin.pwm ∧ pin.pwm ≤ 6) ∧ (1 ≤ pin.port ∧ pin.port ≤ 3) := by
  obtain ⟨port, c⟩ := pin
  unfold pin_prevalidated pin_feature_pwm LPC1768_PIN_PWM LPC1768_PIN_PORT
  simp only [Bool.and_eq_true, decide_eq_true_eq]
  match port with
  | 0 => simp [pin_feature_pwm.lookup]
  | 1 => simp [pin_feature_pwm.lookup]
  | 2 => simp [pin_feature_pwm.lookup]
  | 3 => simp [pin_feature_pwm.lookup]
  | 4 => simp [pin_feature_pwm.lookup]
  | n + 5 => simp [pin_feature_pwm.lookup]

theorem pwm_channel_active_iff (a : Nat) (pin : pin_t) (h1 : 1 ≤ pin.pwm) (h6 : pin.pwm ≤ 6) :
    pwm_channel_active a pin = true ↔
      ∃ p, (1 ≤ p ∧ p ≤ 3) ∧ a.testBit (p * 6 + (pin.pwm - 1)) = true := by
  rw [pwm_channel_active_eq a pin h1 h6]
  simp only [Bool.or_eq_true]
  constructor
  · rintro ((h | h) | h)
    · exact ⟨1, by omega, by rw [Nat.one_mul]; exact h⟩
    · exact ⟨2, by omega, h⟩
    · exact ⟨3, by omega, h⟩
  · rintro ⟨p, ⟨hp1, hp3⟩, h⟩
    interval_cases p
    · rw [Nat.one_mul] at h; exact Or.inl (Or.inl h)
    · exact Or.inl (Or.inr h)
    · exact Or.inr h

theorem pwm_deactivate_channel_testBit (LPC_PWM1_BASE : Nat) (s : State) (pin : pin_t)
    (hp : pin.port ≤ 4) (h1 : 1 ≤ pin.pwm) (h6 : pin.pwm ≤ 6) (i : Nat) :
    (pwm_deactivate_channel LPC_PWM1_BASE s pin).active_pwm_pins.testBit i
      = (s.active_pwm_pins.testBit i
          && (decide (i < 32) && !decide (i = pin.port * 6 + (pin.pwm - 1)))) := by
  rw [pwm_deactivate_channel_active LPC_PWM1_BASE, pwm_pin_id_eq pin h1 (by omega),
    testBit_bit_clear _ _ _ (by omega)]

theorem pwm_hardware_attach_testBit (LPC_PWM1_BASE : Nat) (s : State) (pin : pin_t) (value : Nat)
    (hp : pin.port ≤ 4) (h1 : 1 ≤ pin.pwm) (h6 : pin.pwm ≤ 6) :
    ∃ s' : State, pwm_hardware_attach LPC_PWM1_BASE s pin value = some s' ∧
      (∀ i, s'.active_pwm_pins.testBit i
          = (s.active_pwm_pins.testBit i || decide (i = pin.port * 6 + (pin.pwm - 1)))) ∧
      (∀ i, (s'.mem (PCR LPC_PWM1_BASE)).testBit i
          = ((s.mem (PCR LPC_PWM1_BASE)).testBit i || decide (i = 8 + pin.pwm))) := by
  obtain ⟨feature, hf⟩ := pin_feature_pwm_some pin hp
  have hs := pwm_hardware_attach_eq LPC_PWM1_BASE s pin value feature hf
  refine ⟨_, hs, ?_, ?_⟩
  · intro i
    simp only [pin_enable_feature, pwm_activate_channel, pwm_set_match]
    rw [pwm_pin_id_eq pin h1 (by omega), testBit_bit_set _ _ _ (by omega)]
  · intro i
    rw [pwm_hardware_attach_mem LPC_PWM1_BASE s _ pin value h6 hs, if_pos rfl,
      testBit_bit_set _ _ _ (by omega)]

/-- Detaching one of exactly two owners of a channel keeps the enable bit;
detaching the other one afterwards clears it. -/
theorem detach_one_of_two (LPC_PWM1_BASE : Nat) (t : State) (A B : pin_t)
    (hA : pin_prevalidated A = true) (hB : pin_prevalidated B = true)
    (hch : A.pwm = B.pwm) (hport : A.port ≠ B.port)
    (hact : ∀ i, t.active_pwm_pins.testBit i
        = (decide (i = A.port * 6 + (A.pwm - 1)) || decide (i = B.port * 6 + (B.pwm - 1))))
    (hpcr : (t.mem (PCR LPC_PWM1_BASE)).testBit (8 + A.pwm) = true) :
    ((pwm_deactivate_channel LPC_PWM1_BASE t A).mem (PCR LPC_PWM1_BASE)).testBit (8 + A.pwm) =
        true ∧
    pwm_channel_active (pwm_deactivate_channel LPC_PWM1_BASE t A).active_pwm_pins A = true ∧
    pwm_channel_active (pwm_deactivate_channel LPC_PWM1_BASE t A).active_pwm_pins B = true ∧
    ((pwm_deactivate_channel LPC_PWM1_BASE (pwm_deactivate_channel LPC_PWM1_BASE t A) B).mem (PCR
        LPC_PWM1_BASE)).testBit (8 + A.pwm) = false := by
  obtain ⟨⟨hA1, hA6⟩, hAp1, hAp3⟩ := (pin_prevalidated_iff A).1 hA
  obtain ⟨⟨hB1, hB6⟩, hBp1, hBp3⟩ := (pin_prevalidated_iff B).1 hB
  -- the bitset after detaching A holds exactly the bit of B
  have hd : ∀ i, (pwm_deactivate_channel LPC_PWM1_BASE t A).active_pwm_pins.testBit i
      = decide (i = B.port * 6 + (B.pwm - 1)) := by
    intro i
    rw [pwm_deactivate_channel_testBit LPC_PWM1_BASE t A (by omega) hA1 hA6, hact]
    by_cases hiA : i = A.port * 6 + (A.pwm - 1)
    · have hiB : ¬ i = B.port * 6 + (B.pwm - 1) := by omega
      simp [hiA, hiB]
      omega
    · by_cases hiB : i = B.port * 6 + (B.pwm - 1)
      · have : i < 32 := by omega
        simp [hiA, hiB, this]
        omega
      · simp [hiA, hiB]
  have hcaB : pwm_channel_active (pwm_deactivate_channel LPC_PWM1_BASE t A).active_pwm_pins B =
      true :=
    (pwm_channel_active_iff _ B hB1 hB6).2 ⟨B.port, ⟨hBp1, hBp3⟩, by rw [hd]; simp⟩
  have hcaA : pwm_channel_active (pwm_deactivate_channel LPC_PWM1_BASE t A).active_pwm_pins A =
      true :=
    (pwm_channel_active_iff _ A hA1 hA6).2 ⟨B.port, ⟨hBp1, hBp3⟩, by rw [hd, hch]; simp⟩
  have hpcrA : (pwm_deactivate_channel LPC_PWM1_BASE t A).mem (PCR LPC_PWM1_BASE) = t.mem (PCR
      LPC_PWM1_BASE) := by
    rw [pwm_deactivate_channel_PCR LPC_PWM1_BASE, ← pwm_deactivate_channel_active LPC_PWM1_BASE,
        hcaA]
    rfl
  -- after detaching B as well the bitset is empty
  have hoff : pwm_channel_active
      (pwm_deactivate_channel LPC_PWM1_BASE (pwm_deactivate_channel LPC_PWM1_BASE t A)
          B).active_pwm_pins B = false := by
    rw [← Bool.not_eq_true, pwm_channel_active_iff _ B hB1 hB6]
    rintro ⟨p, _, hbit⟩
    rw [pwm_deactivate_channel_testBit LPC_PWM1_BASE _ B (by omega) hB1 hB6, hd] at hbit
    simp at hbit
    omega
  refine ⟨by rw [hpcrA]; exact hpcr, hcaA, hcaB, ?_⟩
  rw [pwm_deactivate_channel_PCR LPC_PWM1_BASE, ← pwm_deactivate_channel_active LPC_PWM1_BASE, hoff]
  simp only [Bool.false_eq_true, if_false]
  rw [testBit_bit_clear _ _ _ (by omega), hch]
  simp

/-- C1: two pre-validated pins `A` and `B` on different ports that share a
channel `c` are attached starting from an empty bitset.  Detaching either one
leaves `PCR` bit `8 + c` set and `pwm_channel_active` true for both pins; only
the detach of the other pin clears `PCR` bit `8 + c`. -/
theorem shared_channel_ownership (LPC_PWM1_BASE : Nat) (s : State) (A B : pin_t)
    (va vb : Nat)
    (hA : pin_prevalidated A = true) (hB : pin_prevalidated B = true)
    (hch : A.pwm = B.pwm) (hport : A.port ≠ B.port) (h0 : s.active_pwm_pins = 0) :
    ∃ s2 : State, run LPC_PWM1_BASE s [Op.attach A va, Op.attach B vb] = some s2 ∧
      (s2.mem (PCR LPC_PWM1_BASE)).testBit (8 + A.pwm) = true ∧
      (((pwm_deactivate_channel LPC_PWM1_BASE s2 A).mem (PCR LPC_PWM1_BASE)).testBit (8 + A.pwm) =
          true ∧
        pwm_channel_active (pwm_deactivate_channel LPC_PWM1_BASE s2 A).active_pwm_pins A = true ∧
        pwm_channel_active (pwm_deactivate_channel LPC_PWM1_BASE s2 A).active_pwm_pins B = true ∧
        ((pwm_deactivate_channel LPC_PWM1_BASE (pwm_deactivate_channel LPC_PWM1_BASE s2 A) B).mem
            (PCR LPC_PWM1_BASE)).testBit (8 + A.pwm)
          = false) ∧
      (((pwm_deactivate_channel LPC_PWM1_BASE s2 B).mem (PCR LPC_PWM1_BASE)).testBit (8 + A.pwm) =
          true ∧
        pwm_channel_active (pwm_deactivate_channel LPC_PWM1_BASE s2 B).active_pwm_pins B = true ∧
        pwm_channel_active (pwm_deactivate_channel LPC_PWM1_BASE s2 B).active_pwm_pins A = true ∧
        ((pwm_deactivate_channel LPC_PWM1_BASE (pwm_deactivate_channel LPC_PWM1_BASE s2 B) A).mem
            (PCR LPC_PWM1_BASE)).testBit (8 + A.pwm)
          = false) := by
  obtain ⟨⟨hA1, hA6⟩, hAp1, hAp3⟩ := (pin_prevalidated_iff A).1 hA
  obtain ⟨⟨hB1, hB6⟩, hBp1, hBp3⟩ := (pin_prevalidated_iff B).1 hB
  obtain ⟨s1, hs1, ha1, hp1⟩ :=
    pwm_hardware_attach_testBit LPC_PWM1_BASE s A va (by omega) hA1 hA6
  obtain ⟨s2, hs2, ha2, hp2⟩ :=
    pwm_hardware_attach_testBit LPC_PWM1_BASE s1 B vb (by omega) hB1 hB6
  have hact : ∀ i, s2.active_pwm_pins.testBit i
      = (decide (i = A.port * 6 + (A.pwm - 1)) || decide (i = B.port * 6 + (B.pwm - 1))) := by
    intro i
    rw [ha2, ha1, h0, Nat.zero_testBit, Bool.false_or]
  have hpcr : (s2.mem (PCR LPC_PWM1_BASE)).testBit (8 + A.pwm) = true := by
    rw [hp2, hp1]
    simp
  refine ⟨s2, ?_, hpcr, detach_one_of_two LPC_PWM1_BASE s2 A B hA hB hch hport hact hpcr, ?_⟩
  · simp only [run, step, hs1, hs2]
  · have hact' : ∀ i, s2.active_pwm_pins.testBit i
        = (decide (i = B.port * 6 + (B.pwm - 1)) || decide (i = A.port * 6 + (A.pwm - 1))) := by
      intro i
      rw [hact, Bool.or_comm]
    have h := detach_one_of_two LPC_PWM1_BASE s2 B A hB hA hch.symm (Ne.symm hport) hact' (hch ▸
        hpcr)
    rw [← hch] at h
    exact h

/-- Witness for C1: the pins (port 1, channel 3) and (port 2, channel 3) on
the reset state. -/
theorem shared_channel_ownership_witness :
    ∃ s2 : State, run 0x40018000 State.reset [Op.attach ⟨1, 3⟩ 500, Op.attach ⟨2, 3⟩ 700]
        = some s2 ∧
      (s2.mem (PCR 0x40018000)).testBit 11 = true ∧
      ((pwm_deactivate_channel 0x40018000 s2 ⟨1, 3⟩).mem (PCR 0x40018000)).testBit 11 = true ∧
      ((pwm_deactivate_channel 0x40018000 (pwm_deactivate_channel 0x40018000 s2 ⟨1, 3⟩) ⟨2, 3⟩).mem
          (PCR 0x40018000)).testBit 11 = false ∧
      ((pwm_deactivate_channel 0x40018000 s2 ⟨2, 3⟩).mem (PCR 0x40018000)).testBit 11 = true ∧
      ((pwm_deactivate_channel 0x40018000 (pwm_deactivate_channel 0x40018000 s2 ⟨2, 3⟩) ⟨1, 3⟩).mem
          (PCR 0x40018000)).testBit 11
        = false := by
  obtain ⟨s2, hrun, hpcr, hA, hB⟩ :=
    shared_channel_ownership 0x40018000 State.reset ⟨1, 3⟩ ⟨2, 3⟩ 500 700
      (by decide) (by decide) rfl (by decide) rfl
  exact ⟨s2, hrun, hpcr, hA.1, hA.2.2.2, hB.1, hB.2.2.2⟩

/-! ## The enable-bit invariant -/

theorem registry_invariant_attach (LPC_PWM1_BASE : Nat) (s : State) (pin : pin_t) (value : Nat)
    (hinv : registry_invariant LPC_PWM1_BASE s) (hpin : pin_prevalidated pin = true) :
    ∃ s' : State, pwm_hardware_attach LPC_PWM1_BASE s pin value = some s' ∧
      registry_invariant LPC_PWM1_BASE s' := by
  obtain ⟨⟨h1, h6⟩, hp1, hp3⟩ := (pin_prevalidated_iff pin).1 hpin
  obtain ⟨s', hs', hact, hpcr⟩ :=
    pwm_hardware_attach_testBit LPC_PWM1_BASE s pin value (by omega) h1 h6
  refine ⟨s', hs', ?_, ?_⟩
  · intro i hi
    rw [hact, Bool.or_eq_true, decide_eq_true_eq] at hi
    rcases hi with hi | hi
    · exact hinv.1 i hi
    · omega
  · intro c hc1 hc6
    rw [hpcr, Bool.or_eq_true, decide_eq_true_eq, hinv.2 c hc1 hc6]
    constructor
    · rintro (⟨p, hp, hbit⟩ | hc)
      · exact ⟨p, hp, by rw [hact, hbit]; rfl⟩
      · have hcc : c = pin.pwm := by omega
        subst hcc
        exact ⟨pin.port, ⟨hp1, hp3⟩, by rw [hact]; simp⟩
    · rintro ⟨p, hp, hbit⟩
      rw [hact, Bool.or_eq_true, decide_eq_true_eq] at hbit
      rcases hbit with hbit | hbit
      · exact Or.inl ⟨p, hp, hbit⟩
      · right; omega

theorem registry_invariant_detach (LPC_PWM1_BASE : Nat) (s : State) (pin : pin_t)
    (hinv : registry_invariant LPC_PWM1_BASE s) (hpin : pin_prevalidated pin = true) :
    registry_invariant LPC_PWM1_BASE (pwm_deactivate_channel LPC_PWM1_BASE s pin) := by
  obtain ⟨⟨h1, h6⟩, hp1, hp3⟩ := (pin_prevalidated_iff pin).1 hpin
  have hact := pwm_deactivate_channel_testBit LPC_PWM1_BASE s pin (by omega) h1 h6
  have hsub : ∀ i, (pwm_deactivate_channel LPC_PWM1_BASE s pin).active_pwm_pins.testBit i = true →
      s.active_pwm_pins.testBit i = true := by
    intro i hi
    rw [hact] at hi
    simp only [Bool.and_eq_true] at hi
    exact hi.1
  have hkeep : ∀ i, s.active_pwm_pins.testBit i = true →
      i ≠ pin.port * 6 + (pin.pwm - 1) →
      (pwm_deactivate_channel LPC_PWM1_BASE s pin).active_pwm_pins.testBit i = true := by
    intro i hi hne
    have h32 : i < 32 := by have := (hinv.1 i hi).2; omega
    rw [hact, hi]
    simp [h32, hne]
  refine ⟨fun i hi => hinv.1 i (hsub i hi), ?_⟩
  intro c hc1 hc6
  rw [pwm_deactivate_channel_PCR LPC_PWM1_BASE, ← pwm_deactivate_channel_active LPC_PWM1_BASE]
  cases hca : pwm_channel_active (pwm_deactivate_channel LPC_PWM1_BASE s pin).active_pwm_pins pin
  · -- no owner remains for the pin's channel: the enable bit is cleared
    simp only [Bool.false_eq_true, if_false]
    rw [testBit_bit_clear _ _ _ (by omega)]
    have hnone : ¬ ∃ p, (1 ≤ p ∧ p ≤ 3) ∧
        (pwm_deactivate_channel LPC_PWM1_BASE s pin).active_pwm_pins.testBit (p * 6 + (pin.pwm -
            1)) = true := by
      rw [← pwm_channel_active_iff _ pin h1 h6, hca]
      exact Bool.false_ne_true
    constructor
    · intro h
      simp only [Bool.and_eq_true, Bool.not_eq_true', decide_eq_true_eq,
        decide_eq_false_iff_not] at h
      obtain ⟨hbit, _, hne⟩ := h
      obtain ⟨p, hp, hpbit⟩ := (hinv.2 c hc1 hc6).1 hbit
      exact ⟨p, hp, hkeep _ hpbit (by omega)⟩
    · rintro ⟨p, hp, hpbit⟩
      have hcne : c ≠ pin.pwm := by
        intro hcc
        subst hcc
        exact hnone ⟨p, hp, hpbit⟩
      have hbit := (hinv.2 c hc1 hc6).2 ⟨p, hp, hsub _ hpbit⟩
      rw [hbit]
      simp
      omega
  · -- another owner keeps the pin's channel alive: PCR is untouched
    simp only [if_true]
    constructor
    · intro hbit
      obtain ⟨p, hp, hpbit⟩ := (hinv.2 c hc1 hc6).1 hbit
      by_cases hsame : p * 6 + (c - 1) = pin.port * 6 + (pin.pwm - 1)
      · have hcc : c = pin.pwm := by omega
        subst hcc
        exact (pwm_channel_active_iff _ pin h1 h6).1 hca
      · exact ⟨p, hp, hkeep _ hpbit hsame⟩
    · rintro ⟨p, hp, hpbit⟩
      exact (hinv.2 c hc1 hc6).2 ⟨p, hp, hsub _ hpbit⟩

theorem registry_invariant_step (LPC_PWM1_BASE : Nat) (s : State) (op : Op)
    (hinv : registry_invariant LPC_PWM1_BASE s) (hop : op.prevalidated = true) :
    ∃ s' : State, step LPC_PWM1_BASE s op = some s' ∧ registry_invariant LPC_PWM1_BASE s' := by
  cases op with
  | attach pin value => exact registry_invariant_attach LPC_PWM1_BASE s pin value hinv hop
  | detach pin => exact ⟨_, rfl, registry_invariant_detach LPC_PWM1_BASE s pin hinv hop⟩
  | set_match pin value =>
    have h6 : pin.pwm ≤ 6 := ((pin_prevalidated_iff pin).1 hop).1.2
    refine ⟨_, rfl, hinv.1, ?_⟩
    intro c hc1 hc6
    rw [pwm_set_match_PCR LPC_PWM1_BASE s pin value h6]
    exact hinv.2 c hc1 hc6
  | set_period period =>
    refine ⟨_, rfl, hinv.1, ?_⟩
    intro c hc1 hc6
    rw [pwm_set_period_mem, if_neg (PCR_ne_LER LPC_PWM1_BASE),
      if_neg (PCR_ne_MR0 LPC_PWM1_BASE)]
    exact hinv.2 c hc1 hc6

theorem registry_invariant_run (LPC_PWM1_BASE : Nat) (ops : List Op) :
    ∀ s : State, registry_invariant LPC_PWM1_BASE s → ops.all Op.prevalidated = true →
      ∃ s' : State, run LPC_PWM1_BASE s ops = some s' ∧ registry_invariant LPC_PWM1_BASE s' := by
  induction ops with
  | nil => intro s hinv _; exact ⟨s, rfl, hinv⟩
  | cons op ops ih =>
    intro s hinv hall
    rw [List.all_cons, Bool.and_eq_true] at hall
    obtain ⟨s1, hs1, hinv1⟩ := registry_invariant_step LPC_PWM1_BASE s op hinv hall.1
    obtain ⟨s', hs', hinv'⟩ := ih s1 hinv1 hall.2
    exact ⟨s', by simp only [run, hs1, hs'], hinv'⟩

/-- C3: from a state with an empty bitset and `PCR` bits 9..14 clear, every
sequence of attach, detach, set_match and set_period calls on pre-validated
pins runs to a state in which, for every channel `c` in `1..6`, `PCR` bit
`8 + c` is set if and only if some port `p` in `0..4` has registry bit
`p * 6 + (c - 1)` set. -/
theorem enable_bit_invariant (LPC_PWM1_BASE : Nat) (s0 : State) (ops : List Op)
    (h0 : s0.active_pwm_pins = 0)
    (hpcr : ∀ c, 1 ≤ c → c ≤ 6 → (s0.mem (PCR LPC_PWM1_BASE)).testBit (8 + c) = false)
    (hops : ops.all Op.prevalidated = true) :
    ∃ s : State, run LPC_PWM1_BASE s0 ops = some s ∧
      ∀ c, 1 ≤ c → c ≤ 6 →
        ((s.mem (PCR LPC_PWM1_BASE)).testBit (8 + c) = true ↔
          ∃ p, p ≤ 4 ∧ s.active_pwm_pins.testBit (p * 6 + (c - 1)) = true) := by
  have hinit : registry_invariant LPC_PWM1_BASE s0 := by
    refine ⟨?_, ?_⟩
    · intro i hi
      rw [h0, Nat.zero_testBit] at hi
      exact absurd hi Bool.false_ne_true
    · intro c hc1 hc6
      rw [hpcr c hc1 hc6]
      constructor
      · intro h; exact absurd h Bool.false_ne_true
      · rintro ⟨p, _, hbit⟩
        rw [h0, Nat.zero_testBit] at hbit
        exact hbit
  obtain ⟨s, hs, hinv⟩ := registry_invariant_run LPC_PWM1_BASE ops s0 hinit hops
  refine ⟨s, hs, ?_⟩
  intro c hc1 hc6
  rw [hinv.2 c hc1 hc6]
  constructor
  · rintro ⟨p, hp, hbit⟩
    exact ⟨p, by omega, hbit⟩
  · rintro ⟨p, hp, hbit⟩
    have := hinv.1 _ hbit
    exact ⟨p, by omega, hbit⟩

/-- Witness for C3: on the reset state, attach (port 1, channel 3), attach
(port 2, channel 3), detach (port 1, channel 3), then set the period; the
invariant is read off for channel 3. -/
theorem enable_bit_invariant_witness :
    ∃ s : State,
      run 0x40018000 State.reset
        [Op.attach ⟨1, 3⟩ 500, Op.attach ⟨2, 3⟩ 700, Op.detach ⟨1, 3⟩, Op.set_period 1000]
          = some s ∧
      ((s.mem (PCR 0x40018000)).testBit (8 + 3) = true ↔
        ∃ p, p ≤ 4 ∧ s.active_pwm_pins.testBit (p * 6 + (3 - 1)) = true) :=
  have h := enable_bit_invariant 0x40018000 State.reset
    [Op.attach ⟨1, 3⟩ 500, Op.attach ⟨2, 3⟩ 700, Op.detach ⟨1, 3⟩, Op.set_period 1000]
    rfl (fun _ _ _ => Nat.zero_testBit _) (by decide)
  h.elim fun s hs => ⟨s, hs.1, hs.2 3 (by decide) (by decide)⟩

/-! ## Detach frame, feature table, empty bitset, period arithmetic -/

theorem testBit_eq_false_of_word (v i : Nat) (hv : v < 4294967296) (hi : 32 ≤ i) :
    v.testBit i = false := by
  apply Nat.testBit_lt_two_pow
  calc v < 2 ^ 32 := by norm_num; exact hv
    _ ≤ 2 ^ i := Nat.pow_le_pow_right (by norm_num) hi

theorem testBit_bit_clear_word (v b i : Nat) (hv : v < 4294967296) (hb : b < 32) :
    (util.bit_clear v b).testBit i = (v.testBit i && !decide (i = b)) := by
  rw [testBit_bit_clear v b i hb]
  by_cases hi : i < 32
  · simp [hi]
  · rw [testBit_eq_false_of_word v i hv (by omega)]
    simp

/-- C11: on 32-bit register contents, `pwm_deactivate_channel` on a pin with
port in `0..4` and channel `c` in `1..6` changes no registry bit other than
bit `port * 6 + (c - 1)`, so `pwm_pin_active` of every other pin is unchanged;
it changes no `PCR` bit other than bit `8 + c`; and it leaves every other
memory word unchanged: the word `pwm_match_lookup` gives any channel `0..6`,
every match register, the period register and `LER`. -/
theorem pwm_deactivate_channel_frame (LPC_PWM1_BASE : Nat) (s : State) (pin : pin_t)
    (hact : s.active_pwm_pins < 4294967296) (hpcr : s.mem (PCR LPC_PWM1_BASE) < 4294967296)
    (hp : pin.port ≤ 4) (h1 : 1 ≤ pin.pwm) (h6 : pin.pwm ≤ 6) :
    (∀ i, i ≠ pin.port * 6 + (pin.pwm - 1) →
      (pwm_deactivate_channel LPC_PWM1_BASE s pin).active_pwm_pins.testBit i
        = s.active_pwm_pins.testBit i) ∧
    (∀ q : pin_t, q.port ≤ 4 → q.pwm ≤ 6 → q ≠ pin →
      pwm_pin_active (pwm_deactivate_channel LPC_PWM1_BASE s pin).active_pwm_pins q
        = pwm_pin_active s.active_pwm_pins q) ∧
    (∀ i, i ≠ 8 + pin.pwm →
      ((pwm_deactivate_channel LPC_PWM1_BASE s pin).mem (PCR LPC_PWM1_BASE)).testBit i
        = (s.mem (PCR LPC_PWM1_BASE)).testBit i) ∧
    (∀ addr, addr ≠ PCR LPC_PWM1_BASE →
      (pwm_deactivate_channel LPC_PWM1_BASE s pin).mem addr = s.mem addr) ∧
    (∀ q : pin_t, q.pwm ≤ 6 →
      (pwm_deactivate_channel LPC_PWM1_BASE s pin).mem (pwm_match_lookup LPC_PWM1_BASE q)
        = s.mem (pwm_match_lookup LPC_PWM1_BASE q)) ∧
    (∀ c, 1 ≤ c → c ≤ 6 →
      (pwm_deactivate_channel LPC_PWM1_BASE s pin).mem (match_register LPC_PWM1_BASE c)
        = s.mem (match_register LPC_PWM1_BASE c)) ∧
    (pwm_deactivate_channel LPC_PWM1_BASE s pin).mem (MR0 LPC_PWM1_BASE)
      = s.mem (MR0 LPC_PWM1_BASE) ∧
    (pwm_deactivate_channel LPC_PWM1_BASE s pin).mem (LER LPC_PWM1_BASE)
      = s.mem (LER LPC_PWM1_BASE) := by
  have hbits : ∀ i, i ≠ pin.port * 6 + (pin.pwm - 1) →
      (pwm_deactivate_channel LPC_PWM1_BASE s pin).active_pwm_pins.testBit i
        = s.active_pwm_pins.testBit i := by
    intro i hi
    rw [pwm_deactivate_channel_active LPC_PWM1_BASE, pwm_pin_id_eq pin h1 (by omega),
      testBit_bit_clear_word _ _ _ hact (by omega)]
    simp [hi]
  have hmem := pwm_deactivate_channel_mem_other LPC_PWM1_BASE s pin
  refine ⟨hbits, ?_, ?_, hmem,
    fun q hq => hmem _ (pwm_match_lookup_ne_PCR LPC_PWM1_BASE q hq).symm,
    fun c hc1 hc6 => hmem _ (match_register_ne LPC_PWM1_BASE c hc1 hc6).2.2,
    hmem _ (PCR_ne_MR0 LPC_PWM1_BASE).symm, hmem _ (PCR_ne_LER LPC_PWM1_BASE).symm⟩
  · intro q hqp hq6 hne
    by_cases hq0 : q.pwm = 0
    · simp [pwm_pin_active, LPC1768_PIN_PWM, hq0]
    · have hq1 : 1 ≤ q.pwm := by omega
      rw [pwm_pin_active_eq _ q hq1 hq6 hqp, pwm_pin_active_eq _ q hq1 hq6 hqp]
      apply hbits
      intro heq
      apply hne
      obtain ⟨qp, qc⟩ := q
      obtain ⟨pp, pc⟩ := pin
      simp only at heq hq1 hq6 hqp hp h1 h6
      have e1 : qp = pp := by omega
      have e2 : qc = pc := by omega
      rw [e1, e2]
  · intro i hi
    rw [pwm_deactivate_channel_PCR LPC_PWM1_BASE]
    split
    · rfl
    · rw [testBit_bit_clear_word _ _ _ hpcr (by omega)]
      simp [hi]

/-- Witness for C11: detaching (port 1, channel 3) from the state in which it
was attached alone. -/
theorem pwm_deactivate_channel_frame_witness :
    (pwm_deactivate_channel 0x40018000 State.attached_1_3 ⟨1, 3⟩).active_pwm_pins.testBit 14
        = State.attached_1_3.active_pwm_pins.testBit 14 ∧
    pwm_pin_active
        (pwm_deactivate_channel 0x40018000 State.attached_1_3 ⟨1, 3⟩).active_pwm_pins ⟨2, 3⟩
      = pwm_pin_active State.attached_1_3.active_pwm_pins ⟨2, 3⟩ ∧
    (pwm_deactivate_channel 0x40018000 State.attached_1_3 ⟨1, 3⟩).mem
        (pwm_match_lookup 0x40018000 ⟨1, 3⟩) = 500 ∧
    (pwm_deactivate_channel 0x40018000 State.attached_1_3 ⟨1, 3⟩).mem (LER 0x40018000)
      = State.attached_1_3.mem (LER 0x40018000) :=
  have h := pwm_deactivate_channel_frame 0x40018000 State.attached_1_3 ⟨1, 3⟩
    (by decide) (by decide) (by decide) (by decide) (by decide)
  ⟨h.1 14 (by decide), h.2.1 ⟨2, 3⟩ (by decide) (by decide) (by decide),
    (h.2.2.2.2.1 ⟨1, 3⟩ (by decide)).trans (by decide), h.2.2.2.2.2.2.2⟩

/-- C12: for every port in `0..4`, `pin_feature_pwm` is defined and returns
the entry of the table `{-1, 2, 1, 3, -1}`: `-1` for ports 0 and 4, and `2`,
`1`, `3` for ports 1, 2, 3; a negative result occurs exactly on ports 0 and 4,
and the result depends on the port only. -/
theorem pin_feature_pwm_table (pin : pin_t) (hp : pin.port ≤ 4) :
    ∃ feature : Int, pin_feature_pwm pin = some feature ∧
      [(-1 : Int), 2, 1, 3, -1][pin.port]? = some feature ∧
      (pin.port = 0 → feature = -1) ∧ (pin.port = 1 → feature = 2) ∧
      (pin.port = 2 → feature = 1) ∧ (pin.port = 3 → feature = 3) ∧
      (pin.port = 4 → feature = -1) ∧
      (feature < 0 ↔ pin.port = 0 ∨ pin.port = 4) ∧
      (0 < feature ↔ 1 ≤ pin.port ∧ pin.port ≤ 3) ∧
      ∀ q : pin_t, q.port = pin.port → pin_feature_pwm q = some feature := by
  obtain ⟨port, c⟩ := pin
  simp only at hp
  have hq : ∀ (v : Int), pin_feature_pwm ⟨port, c⟩ = some v →
      ∀ q : pin_t, q.port = port → pin_feature_pwm q = some v := by
    intro v hv q hq
    rw [← hv]
    simp only [pin_feature_pwm, LPC1768_PIN_PORT, hq]
  interval_cases port
  · exact ⟨(-1 : Int), by simp [pin_feature_pwm, LPC1768_PIN_PORT, pin_feature_pwm.lookup], by
      simp, by simp, by simp, by simp, by simp, by simp, by simp, by simp,
      hq (-1) (by simp [pin_feature_pwm, LPC1768_PIN_PORT, pin_feature_pwm.lookup])⟩
  · exact ⟨2, rfl, rfl, by simp, by simp, by simp, by simp, by simp, by simp, by simp,
      hq 2 rfl⟩
  · exact ⟨1, rfl, rfl, by simp, by simp, by simp, by simp, by simp, by simp, by simp,
      hq 1 rfl⟩
  · exact ⟨3, rfl, rfl, by simp, by simp, by simp, by simp, by simp, by simp, by simp,
      hq 3 rfl⟩
  · exact ⟨(-1 : Int), by simp [pin_feature_pwm, LPC1768_PIN_PORT, pin_feature_pwm.lookup], by
      simp, by simp, by simp, by simp, by simp, by simp, by simp, by simp,
      hq (-1) (by simp [pin_feature_pwm, LPC1768_PIN_PORT, pin_feature_pwm.lookup])⟩

/-- Witness for C12: the pin (port 3, channel 2) gets selector 3, and so does
the pin (port 3, channel 5). -/
theorem pin_feature_pwm_table_witness :
    pin_feature_pwm ⟨3, 2⟩ = some 3 ∧ pin_feature_pwm ⟨3, 5⟩ = some 3 := by
  obtain ⟨feature, hf, _, _, _, _, h3, _, _, _, hq⟩ := pin_feature_pwm_table ⟨3, 2⟩ (by decide)
  have hfe : feature = 3 := h3 rfl
  subst hfe
  exact ⟨hf, hq ⟨3, 5⟩ rfl⟩

/-- C14: with an empty bitset (no pin ever attached) `pwm_channel_active` and
`pwm_pin_active` are false for every pin, in particular for every port in
`0..4` and every channel in `0..6`. -/
theorem inactive_when_bitset_empty (pin : pin_t) :
    pwm_channel_active 0 pin = false ∧ pwm_pin_active 0 pin = false := by
  constructor
  · simp [pwm_channel_active, util.bitset_mask]
  · simp [pwm_pin_active, util.bit_test]

/-- C20: `pwm_set_period` stores `(p - 1) mod 2 ^ 32` in `MR0` for every
period `p`; for `p = 0` that is `0xFFFFFFFF`, and for every `p` in
`1 .. 2 ^ 32 - 1` the stored value is strictly less than `p`. -/
theorem pwm_set_period_wraps (LPC_PWM1_BASE : Nat) (s : State) (period : Nat) :
    ((pwm_set_period LPC_PWM1_BASE s period).mem (MR0 LPC_PWM1_BASE) : Int)
        = ((period : Int) - 1) % 4294967296 ∧
    (period = 0 →
      (pwm_set_period LPC_PWM1_BASE s period).mem (MR0 LPC_PWM1_BASE) = 4294967295) ∧
    (1 ≤ period → period < 4294967296 →
      (pwm_set_period LPC_PWM1_BASE s period).mem (MR0 LPC_PWM1_BASE) < period) := by
  rw [pwm_set_period_mem, if_neg (MR0_ne_LER LPC_PWM1_BASE), if_pos rfl]
  refine ⟨by omega, fun h => by omega, fun h1 h2 => by omega⟩

/-- Witness for C20: period 0 stores `0xFFFFFFFF`, period 1000 stores a
value below 1000. -/
theorem pwm_set_period_wraps_witness :
    (pwm_set_period 0x40018000 State.reset 0).mem (MR0 0x40018000) = 4294967295 ∧
    (pwm_set_period 0x40018000 State.reset 1000).mem (MR0 0x40018000) < 1000 :=
  ⟨(pwm_set_period_wraps 0x40018000 State.reset 0).2.1 rfl,
    (pwm_set_period_wraps 0x40018000 State.reset 1000).2.2 (by decide) (by decide)⟩

/-! ## Short-circuit, shared match register, repeated attach -/

theorem pwm_pin_active_eval_fst (a : Nat) (pin : pin_t) :
    (pwm_pin_active_eval a pin).1 = pwm_pin_active a pin := by
  unfold pwm_pin_active_eval pwm_pin_active
  cases h : (LPC1768_PIN_PWM pin != 0) <;> simp

theorem pwm_channel_active_eval_fst (a : Nat) (pin : pin_t) :
    (pwm_channel_active_eval a pin).1 = pwm_channel_active a pin := by
  unfold pwm_channel_active_eval pwm_channel_active
  cases h : (LPC1768_PIN_PWM pin != 0) <;> simp

/-- C13: for a pin whose channel is 0, whatever its port and whatever the
bitset, `pwm_pin_active` and `pwm_channel_active` return false, and the
evaluation performs no shift, no `pwm_pin_id` call and no masking: the pin
query evaluates nothing past the channel test, the channel query only the
wrapped subtraction `0 - 1 = 0xFFFFFFFF`. -/
theorem channel_zero_inactive (active_pwm_pins : Nat) (pin : pin_t) (h0 : pin.pwm = 0) :
    pwm_pin_active active_pwm_pins pin = false ∧
    pwm_channel_active active_pwm_pins pin = false ∧
    pwm_pin_active_eval active_pwm_pins pin = (pwm_pin_active active_pwm_pins pin, []) ∧
    pwm_channel_active_eval active_pwm_pins pin
      = (pwm_channel_active active_pwm_pins pin, [Eval.channel_minus_one 4294967295]) ∧
    (∀ n, Eval.shift n ∉ (pwm_pin_active_eval active_pwm_pins pin).2 ∧
          Eval.pwm_pin_id n ∉ (pwm_pin_active_eval active_pwm_pins pin).2 ∧
          Eval.shift n ∉ (pwm_channel_active_eval active_pwm_pins pin).2 ∧
          Eval.bitset_mask n ∉ (pwm_channel_active_eval active_pwm_pins pin).2) := by
  have hp : pwm_pin_active active_pwm_pins pin = false := by
    simp [pwm_pin_active, LPC1768_PIN_PWM, h0]
  have hc : pwm_channel_active active_pwm_pins pin = false := by
    simp [pwm_channel_active, LPC1768_PIN_PWM, h0]
  have hpe : pwm_pin_active_eval active_pwm_pins pin = (false, []) := by
    simp [pwm_pin_active_eval, LPC1768_PIN_PWM, h0]
  have hce : pwm_channel_active_eval active_pwm_pins pin
      = (false, [Eval.channel_minus_one 4294967295]) := by
    simp [pwm_channel_active_eval, LPC1768_PIN_PWM, h0]
  refine ⟨hp, hc, by rw [hpe, hp], by rw [hce, hc], ?_⟩
  intro n
  rw [hpe, hce]
  simp

/-- Witness for C13: the pin (port 0, channel 0) with every bit of the bitset
set. -/
theorem channel_zero_inactive_witness :
    pwm_pin_active 4294967295 ⟨0, 0⟩ = false ∧
    pwm_channel_active 4294967295 ⟨0, 0⟩ = false ∧
    (pwm_pin_active_eval 4294967295 ⟨0, 0⟩).2 = [] :=
  have h := channel_zero_inactive 4294967295 ⟨0, 0⟩ rfl
  ⟨h.1, h.2.1, congrArg Prod.snd h.2.2.1⟩

/-- C15 (the code at the failing input): two pins on channel 4 share one
address, the address of `LER`, and after `pwm_set_match(A, a)` followed by
`pwm_set_match(B, b)` the shared word holds `b | 16`, not `b`: with `a = 500`
and `b = 1000` on the reset state it holds 1016.  The match register of
channel 4 holds neither value. -/
theorem shared_match_channel_4_holds_latch_bit (LPC_PWM1_BASE : Nat) (s : State)
    (a b : Nat) :
    pwm_match_lookup LPC_PWM1_BASE ⟨1, 4⟩ = pwm_match_lookup LPC_PWM1_BASE ⟨2, 4⟩ ∧
    pwm_match_lookup LPC_PWM1_BASE ⟨1, 4⟩ = LER LPC_PWM1_BASE ∧
    (pwm_set_match LPC_PWM1_BASE (pwm_set_match LPC_PWM1_BASE s ⟨1, 4⟩ a) ⟨2, 4⟩ b).mem
        (pwm_match_lookup LPC_PWM1_BASE ⟨1, 4⟩) = b ||| 16 ∧
    (pwm_set_match LPC_PWM1_BASE (pwm_set_match LPC_PWM1_BASE s ⟨1, 4⟩ a) ⟨2, 4⟩ b).mem
        (match_register LPC_PWM1_BASE 4) = s.mem (match_register LPC_PWM1_BASE 4) ∧
    (pwm_set_match 0x40018000 (pwm_set_match 0x40018000 State.reset ⟨1, 4⟩ 500) ⟨2, 4⟩ 1000).mem
        (pwm_match_lookup 0x40018000 ⟨1, 4⟩) = 1016 := by
  have h1 : pwm_match_lookup LPC_PWM1_BASE ⟨1, 4⟩ = LER LPC_PWM1_BASE :=
    (pwm_match_lookup_eq_LER_iff LPC_PWM1_BASE ⟨1, 4⟩ (by decide)).2 rfl
  have h2 : pwm_match_lookup LPC_PWM1_BASE ⟨2, 4⟩ = LER LPC_PWM1_BASE :=
    (pwm_match_lookup_eq_LER_iff LPC_PWM1_BASE ⟨2, 4⟩ (by decide)).2 rfl
  obtain ⟨_, hler, _⟩ := match_register_ne LPC_PWM1_BASE 4 (by decide) (by decide)
  refine ⟨h1.trans h2.symm, h1, ?_, ?_, by decide⟩
  · rw [pwm_set_match_mem, h1, h2, if_pos rfl, if_pos rfl]
    rfl
  · rw [pwm_set_match_mem_other LPC_PWM1_BASE _ ⟨2, 4⟩ b _ (h2 ▸ hler) hler,
      pwm_set_match_mem_other LPC_PWM1_BASE s ⟨1, 4⟩ a _ (h1 ▸ hler) hler]

/-- Last write wins on the channels whose `pwm_match_lookup` address is not
the address of `LER` (channels 0..3, 5 and 6). -/
theorem shared_match_last_write_wins_unaliased (LPC_PWM1_BASE : Nat) (s : State) (A B : pin_t)
    (a b : Nat) (hch : A.pwm = B.pwm) (h6 : A.pwm ≤ 6) (h4 : A.pwm ≠ 4) :
    pwm_match_lookup LPC_PWM1_BASE A = pwm_match_lookup LPC_PWM1_BASE B ∧
    (pwm_set_match LPC_PWM1_BASE (pwm_set_match LPC_PWM1_BASE s A a) B b).mem
        (pwm_match_lookup LPC_PWM1_BASE A) = b := by
  have haddr : pwm_match_lookup LPC_PWM1_BASE A = pwm_match_lookup LPC_PWM1_BASE B := by
    simp only [pwm_match_lookup, LPC1768_PIN_PWM, hch]
  have hne : pwm_match_lookup LPC_PWM1_BASE B ≠ LER LPC_PWM1_BASE := fun h =>
    h4 ((pwm_match_lookup_eq_LER_iff LPC_PWM1_BASE A h6).1 (haddr.trans h))
  refine ⟨haddr, ?_⟩
  rw [haddr, pwm_set_match_mem, if_neg hne, if_pos rfl]

theorem bit_set_idem (v b : Nat) : util.bit_set (util.bit_set v b) b = util.bit_set v b := by
  unfold util.bit_set
  apply Nat.eq_of_testBit_eq
  intro i
  simp only [Nat.testBit_or, Bool.or_assoc, Bool.or_self]

theorem State.eq_of_fields (s t : State) (h1 : s.active_pwm_pins = t.active_pwm_pins)
    (h2 : s.mem = t.mem) (h3 : s.pinsel = t.pinsel) :
    s = t := by
  cases s
  cases t
  simp only at h1 h2 h3
  subst h1 h2 h3
  rfl

theorem pwm_set_match_mem_twice (LPC_PWM1_BASE : Nat) (s t : State) (pin : pin_t)
    (value x : Nat)
    (hl : t.mem (LER LPC_PWM1_BASE)
      = (pwm_set_match LPC_PWM1_BASE s pin value).mem (LER LPC_PWM1_BASE))
    (hx : t.mem x = (pwm_set_match LPC_PWM1_BASE s pin value).mem x) :
    (pwm_set_match LPC_PWM1_BASE t pin value).mem x
      = (pwm_set_match LPC_PWM1_BASE s pin value).mem x := by
  rw [pwm_set_match_mem LPC_PWM1_BASE t]
  by_cases h1 : x = LER LPC_PWM1_BASE
  · subst h1
    rw [if_pos rfl, hl, pwm_set_match_mem LPC_PWM1_BASE s, if_pos rfl]
    by_cases h2 : LER LPC_PWM1_BASE = pwm_match_lookup LPC_PWM1_BASE pin
    · simp only [if_pos h2]
    · simp only [if_neg h2]
      exact bit_set_idem _ _
  · rw [if_neg h1]
    by_cases h2 : x = pwm_match_lookup LPC_PWM1_BASE pin
    · rw [if_pos h2, pwm_set_match_mem LPC_PWM1_BASE s, if_neg h1, if_pos h2]
    · rw [if_neg h2, hx]

theorem pwm_hardware_attach_twice (LPC_PWM1_BASE : Nat) (s s1 : State) (pin : pin_t)
    (value : Nat) (h6 : pin.pwm ≤ 6)
    (h : pwm_hardware_attach LPC_PWM1_BASE s pin value = some s1) :
    pwm_hardware_attach LPC_PWM1_BASE s1 pin value = some s1 := by
  cases hf : pin_feature_pwm pin with
  | none => simp [pwm_hardware_attach, hf] at h
  | some feature =>
    have hmem1 := pwm_hardware_attach_mem LPC_PWM1_BASE s s1 pin value h6 h
    have h2 := pwm_hardware_attach_eq LPC_PWM1_BASE s1 pin value feature hf
    have hmem2 := pwm_hardware_attach_mem LPC_PWM1_BASE s1 _ pin value h6 h2
    rw [pwm_hardware_attach_eq LPC_PWM1_BASE s pin value feature hf] at h
    have hs1 := (Option.some.inj h).symm
    rw [h2]
    congr 1
    apply State.eq_of_fields
    · rw [hs1]
      simp only [pin_enable_feature, pwm_activate_channel, pwm_set_match]
      exact bit_set_idem _ _
    · funext x
      have hpcr : s1.mem (PCR LPC_PWM1_BASE)
          = util.bit_set (s.mem (PCR LPC_PWM1_BASE)) (8 + pin.pwm) := by
        rw [hmem1, if_pos rfl]
      rw [hmem2]
      by_cases hx : x = PCR LPC_PWM1_BASE
      · rw [if_pos hx, hx, hpcr]
        exact bit_set_idem _ _
      · rw [if_neg hx]
        have hx1 : s1.mem x = (pwm_set_match LPC_PWM1_BASE s pin value).mem x := by
          rw [hmem1, if_neg hx]
        have hl1 : s1.mem (LER LPC_PWM1_BASE)
            = (pwm_set_match LPC_PWM1_BASE s pin value).mem (LER LPC_PWM1_BASE) := by
          rw [hmem1, if_neg (PCR_ne_LER LPC_PWM1_BASE).symm]
        rw [hx1]
        exact pwm_set_match_mem_twice LPC_PWM1_BASE s s1 pin value x hl1 hx1
    · rw [hs1]
      simp only [pin_enable_feature, pwm_activate_channel, pwm_set_match]
      exact Function.update_idem _ _ _

theorem attach_times_fixed (LPC_PWM1_BASE : Nat) (s1 : State) (pin : pin_t) (value : Nat)
    (h : pwm_hardware_attach LPC_PWM1_BASE s1 pin value = some s1) :
    ∀ n, attach_times LPC_PWM1_BASE pin value n s1 = some s1 := by
  intro n
  induction n with
  | zero => rfl
  | succ n ih => simp only [attach_times, h, ih]

/-- C16: attaching a pin (port in `0..4`, channel in `1..6`) a second time
with the same value gives exactly the state of the first attach, so any
number `n ≥ 1` of attaches ends in that same state, and a single detach then
makes `pwm_pin_active` false: ownership is one bit, not a count. -/
theorem attach_idempotent_detach_once (LPC_PWM1_BASE : Nat) (s : State) (pin : pin_t)
    (value : Nat) (hp : pin.port ≤ 4) (h1 : 1 ≤ pin.pwm) (h6 : pin.pwm ≤ 6) :
    ∃ s1 : State,
      pwm_hardware_attach LPC_PWM1_BASE s pin value = some s1 ∧
      pwm_hardware_attach LPC_PWM1_BASE s1 pin value = some s1 ∧
      pwm_pin_active s1.active_pwm_pins pin = true ∧
      (∀ n, 1 ≤ n → attach_times LPC_PWM1_BASE pin value n s = some s1) ∧
      pwm_pin_active (pwm_deactivate_channel LPC_PWM1_BASE s1 pin).active_pwm_pins pin = false := by
  obtain ⟨s1, hs1, hact, _⟩ := pwm_hardware_attach_testBit LPC_PWM1_BASE s pin value hp h1 h6
  have htwice := pwm_hardware_attach_twice LPC_PWM1_BASE s s1 pin value h6 hs1
  refine ⟨s1, hs1, htwice, ?_, ?_, ?_⟩
  · rw [pwm_pin_active_eq _ pin h1 h6 hp, hact]
    simp
  · intro n hn
    obtain ⟨k, rfl⟩ : ∃ k, n = k + 1 := ⟨n - 1, by omega⟩
    simp only [attach_times, hs1]
    exact attach_times_fixed LPC_PWM1_BASE s1 pin value htwice k
  · rw [pwm_pin_active_eq _ pin h1 h6 hp, pwm_deactivate_channel_testBit LPC_PWM1_BASE s1 pin hp h1
      h6]
    simp

/-- Witness for C16: the pin (port 1, channel 3) attached three times with
value 500 on the reset state, then detached once. -/
theorem attach_idempotent_detach_once_witness :
    attach_times 0x40018000 ⟨1, 3⟩ 500 3 State.reset
        = pwm_hardware_attach 0x40018000 State.reset ⟨1, 3⟩ 500 ∧
    ∃ s1 : State, attach_times 0x40018000 ⟨1, 3⟩ 500 3 State.reset = some s1 ∧
      pwm_pin_active (pwm_deactivate_channel 0x40018000 s1 ⟨1, 3⟩).active_pwm_pins ⟨1, 3⟩ =
          false := by
  obtain ⟨s1, hs1, _, _, hn, hoff⟩ :=
    attach_idempotent_detach_once 0x40018000 State.reset ⟨1, 3⟩ 500
      (by decide) (by decide) (by decide)
  exact ⟨by rw [hn 3 (by decide), hs1], s1, hn 3 (by decide), hoff⟩

/-! ## Write order -/

theorem apply_pwm_set_period_writes (LPC_PWM1_BASE : Nat) (s : State) (period : Nat) :
    apply_writes LPC_PWM1_BASE s (pwm_set_period_writes LPC_PWM1_BASE period)
      = pwm_set_period LPC_PWM1_BASE s period := rfl

theorem apply_pwm_set_match_writes (LPC_PWM1_BASE : Nat) (s : State) (pin : pin_t)
    (value : Nat) :
    apply_writes LPC_PWM1_BASE s (pwm_set_match_writes LPC_PWM1_BASE pin value)
      = pwm_set_match LPC_PWM1_BASE s pin value := rfl

theorem apply_pwm_hardware_attach_writes (LPC_PWM1_BASE : Nat) (s : State) (pin : pin_t)
    (value : Nat) :
    (pwm_hardware_attach_writes LPC_PWM1_BASE pin value).map (apply_writes LPC_PWM1_BASE s)
      = pwm_hardware_attach LPC_PWM1_BASE s pin value := by
  unfold pwm_hardware_attach_writes pwm_hardware_attach
  cases pin_feature_pwm pin <;> rfl

/-- C17: with each call modelled as the ordered list of its writes (a list
that replays to the call's result state), `pwm_set_match`, `pwm_set_period`
and `pwm_hardware_attach` store the staged value strictly before the write
that sets the matching `LER` latch bit, and in `pwm_set_match` and
`pwm_set_period` the latch write is the last write. -/
theorem write_before_latch (LPC_PWM1_BASE : Nat) (s : State) (pin : pin_t)
    (value period : Nat) (hp : pin.port ≤ 4) :
    (apply_writes LPC_PWM1_BASE s (pwm_set_match_writes LPC_PWM1_BASE pin value)
        = pwm_set_match LPC_PWM1_BASE s pin value ∧
      (pwm_set_match_writes LPC_PWM1_BASE pin value).indexOf
          (Write.store (pwm_match_lookup LPC_PWM1_BASE pin) value)
        < (pwm_set_match_writes LPC_PWM1_BASE pin value).indexOf (Write.bit_set Reg.LER pin.pwm) ∧
      (pwm_set_match_writes LPC_PWM1_BASE pin value).getLast?
        = some (Write.bit_set Reg.LER pin.pwm)) ∧
    (apply_writes LPC_PWM1_BASE s (pwm_set_period_writes LPC_PWM1_BASE period)
        = pwm_set_period LPC_PWM1_BASE s period ∧
      (pwm_set_period_writes LPC_PWM1_BASE period).indexOf
          (Write.store (MR0 LPC_PWM1_BASE) ((((period : Int) - 1) % 4294967296).toNat))
        < (pwm_set_period_writes LPC_PWM1_BASE period).indexOf (Write.bit_set Reg.LER 0) ∧
      (pwm_set_period_writes LPC_PWM1_BASE period).getLast?
        = some (Write.bit_set Reg.LER 0)) ∧
    (∃ writes : List Write,
      pwm_hardware_attach_writes LPC_PWM1_BASE pin value = some writes ∧
      pwm_hardware_attach LPC_PWM1_BASE s pin value = some (apply_writes LPC_PWM1_BASE s writes) ∧
      writes.indexOf (Write.store (pwm_match_lookup LPC_PWM1_BASE pin) value)
        < writes.indexOf (Write.bit_set Reg.LER pin.pwm) ∧
      writes.indexOf (Write.bit_set Reg.LER pin.pwm) < writes.length) := by
  refine ⟨⟨rfl, ?_, ?_⟩, ⟨rfl, ?_, ?_⟩, ?_⟩
  · simp [pwm_set_match_writes, LPC1768_PIN_PWM, List.indexOf_cons]
  · simp [pwm_set_match_writes, LPC1768_PIN_PWM]
  · simp [pwm_set_period_writes, List.indexOf_cons]
  · simp [pwm_set_period_writes]
  · obtain ⟨feature, hf⟩ := pin_feature_pwm_some pin hp
    have hw : pwm_hardware_attach_writes LPC_PWM1_BASE pin value
        = some (pwm_set_match_writes LPC_PWM1_BASE pin value ++ pwm_activate_channel_writes pin
            ++ [Write.enable_feature pin feature]) := by
      simp only [pwm_hardware_attach_writes, hf]
    refine ⟨_, hw, ?_, ?_, ?_⟩
    · rw [← apply_pwm_hardware_attach_writes LPC_PWM1_BASE s pin value, hw]
      rfl
    · simp [pwm_set_match_writes, pwm_activate_channel_writes, LPC1768_PIN_PWM,
        List.indexOf_cons]
    · simp [pwm_set_match_writes, pwm_activate_channel_writes, LPC1768_PIN_PWM,
        List.indexOf_cons]

/-- Witness for C17: the pin (port 1, channel 3) with value 500 and the
period 1000 on the reset state. -/
theorem write_before_latch_witness :
    (pwm_set_match_writes 0x40018000 ⟨1, 3⟩ 500).getLast? = some (Write.bit_set Reg.LER 3) ∧
    (pwm_set_period_writes 0x40018000 1000).getLast? = some (Write.bit_set Reg.LER 0) ∧
    ∃ writes : List Write,
      pwm_hardware_attach_writes 0x40018000 ⟨1, 3⟩ 500 = some writes ∧
      writes.indexOf (Write.store (pwm_match_lookup 0x40018000 ⟨1, 3⟩) 500)
        < writes.indexOf (Write.bit_set Reg.LER 3) :=
  have h := write_before_latch 0x40018000 State.reset ⟨1, 3⟩ 500 1000 (by decide)
  ⟨h.1.2.2, h.2.1.2.2, h.2.2.elim fun w hw => ⟨w, hw.1, hw.2.2.1⟩⟩

/-! ## Ports outside the channel mask -/

theorem feature_nonneg_iff (pin : pin_t) :
    (∃ feature : Int, pin_feature_pwm pin = some feature ∧ 0 ≤ feature)
      ↔ (1 ≤ pin.port ∧ pin.port ≤ 3) := by
  obtain ⟨port, c⟩ := pin
  unfold pin_feature_pwm LPC1768_PIN_PORT
  match port with
  | 0 => simp [pin_feature_pwm.lookup]
  | 1 => simp [pin_feature_pwm.lookup]
  | 2 => simp [pin_feature_pwm.lookup]
  | 3 => simp [pin_feature_pwm.lookup]
  | 4 => simp [pin_feature_pwm.lookup]
  | n + 5 => simp [pin_feature_pwm.lookup]

/-- C18: for a pin with port in `0..4` and channel in `1..6`,
`pwm_pin_active` implies `pwm_channel_active` for every bitset exactly when
the port's feature code is non-negative, that is on ports 1, 2 and 3; on port
0 and on port 4 the bitset holding only the pin's own bit makes
`pwm_pin_active` true and `pwm_channel_active` false, since the channel test
reads bits `6 + k`, `12 + k` and `18 + k` only (`k = channel - 1`). -/
theorem pin_active_implies_channel_active_iff (pin : pin_t)
    (hp : pin.port ≤ 4) (h1 : 1 ≤ pin.pwm) (h6 : pin.pwm ≤ 6) :
    ((∀ a : Nat, pwm_pin_active a pin = true → pwm_channel_active a pin = true)
      ↔ ∃ feature : Int, pin_feature_pwm pin = some feature ∧ 0 ≤ feature) ∧
    ((∃ feature : Int, pin_feature_pwm pin = some feature ∧ 0 ≤ feature)
      ↔ (pin.port = 1 ∨ pin.port = 2 ∨ pin.port = 3)) ∧
    (pin.port = 0 ∨ pin.port = 4 →
      pwm_pin_active (2 ^ (pin.port * 6 + (pin.pwm - 1))) pin = true ∧
      pwm_channel_active (2 ^ (pin.port * 6 + (pin.pwm - 1))) pin = false) ∧
    (∀ a : Nat, pwm_channel_active a pin
      = (a.testBit (6 + (pin.pwm - 1)) || a.testBit (12 + (pin.pwm - 1))
          || a.testBit (18 + (pin.pwm - 1)))) := by
  have hbad : pin.port = 0 ∨ pin.port = 4 →
      pwm_pin_active (2 ^ (pin.port * 6 + (pin.pwm - 1))) pin = true ∧
      pwm_channel_active (2 ^ (pin.port * 6 + (pin.pwm - 1))) pin = false := by
    intro h04
    constructor
    · rw [pwm_pin_active_eq _ pin h1 h6 hp, Nat.testBit_two_pow]
      simp
    · rw [pwm_channel_active_eq _ pin h1 h6, Nat.testBit_two_pow, Nat.testBit_two_pow,
        Nat.testBit_two_pow]
      have e1 : ¬ pin.port * 6 + (pin.pwm - 1) = 6 + (pin.pwm - 1) := by omega
      have e2 : ¬ pin.port * 6 + (pin.pwm - 1) = 12 + (pin.pwm - 1) := by omega
      have e3 : ¬ pin.port * 6 + (pin.pwm - 1) = 18 + (pin.pwm - 1) := by omega
      simp [e1, e2, e3]
  refine ⟨?_, ?_, hbad, fun a => pwm_channel_active_eq a pin h1 h6⟩
  · rw [feature_nonneg_iff]
    constructor
    · intro himp
      by_contra hport
      have h04 : pin.port = 0 ∨ pin.port = 4 := by omega
      obtain ⟨hon, hoff⟩ := hbad h04
      rw [himp _ hon] at hoff
      exact Bool.noConfusion hoff
    · intro hport a hact
      rw [pwm_pin_active_eq _ pin h1 h6 hp] at hact
      exact (pwm_channel_active_iff a pin h1 h6).2 ⟨pin.port, hport, hact⟩
  · rw [feature_nonneg_iff]
    omega

/-- Witness for C18: the pin (port 4, channel 2), whose own bit is bit 25. -/
theorem pin_active_implies_channel_active_iff_witness :
    pwm_pin_active (2 ^ 25) ⟨4, 2⟩ = true ∧ pwm_channel_active (2 ^ 25) ⟨4, 2⟩ = false ∧
    ¬ ∃ feature : Int, pin_feature_pwm ⟨4, 2⟩ = some feature ∧ 0 ≤ feature :=
  have h := pin_active_implies_channel_active_iff ⟨4, 2⟩ (by decide) (by decide) (by decide)
  ⟨(h.2.2.1 (Or.inr rfl)).1, (h.2.2.1 (Or.inr rfl)).2,
    fun hf => absurd (h.2.1.1 hf) (by decide)⟩

/-! ## Rows of the registry that are never written -/

theorem registry_rows_only_attach (LPC_PWM1_BASE : Nat) (s : State) (pin : pin_t) (value : Nat)
    (hrows : registry_rows_only s.active_pwm_pins) (hpin : pin_prevalidated pin = true) :
    ∃ s' : State, pwm_hardware_attach LPC_PWM1_BASE s pin value = some s' ∧
      registry_rows_only s'.active_pwm_pins := by
  obtain ⟨⟨h1, h6⟩, hp1, hp3⟩ := (pin_prevalidated_iff pin).1 hpin
  obtain ⟨s', hs', hact, _⟩ :=
    pwm_hardware_attach_testBit LPC_PWM1_BASE s pin value (by omega) h1 h6
  refine ⟨s', hs', ?_⟩
  intro i hi
  rw [hact, Bool.or_eq_true, decide_eq_true_eq] at hi
  rcases hi with hi | hi
  · exact hrows i hi
  · omega

theorem registry_rows_only_detach (LPC_PWM1_BASE : Nat) (s : State) (pin : pin_t)
    (hrows : registry_rows_only s.active_pwm_pins) (hpin : pin_prevalidated pin = true) :
    registry_rows_only (pwm_deactivate_channel LPC_PWM1_BASE s pin).active_pwm_pins := by
  obtain ⟨⟨h1, h6⟩, hp1, hp3⟩ := (pin_prevalidated_iff pin).1 hpin
  intro i hi
  rw [pwm_deactivate_channel_testBit LPC_PWM1_BASE s pin (by omega) h1 h6] at hi
  simp only [Bool.and_eq_true] at hi
  exact hrows i hi.1

theorem registry_rows_only_run (LPC_PWM1_BASE : Nat) (ops : List Op) :
    ∀ s : State, registry_rows_only s.active_pwm_pins → ops.all Op.prevalidated = true →
      ∃ s' : State, run LPC_PWM1_BASE s ops = some s' ∧
        registry_rows_only s'.active_pwm_pins := by
  induction ops with
  | nil => intro s hrows _; exact ⟨s, rfl, hrows⟩
  | cons op ops ih =>
    intro s hrows hall
    rw [List.all_cons, Bool.and_eq_true] at hall
    have hstep : ∃ s1 : State, step LPC_PWM1_BASE s op = some s1 ∧
        registry_rows_only s1.active_pwm_pins := by
      cases op with
      | attach pin value => exact registry_rows_only_attach LPC_PWM1_BASE s pin value hrows hall.1
      | detach pin => exact ⟨_, rfl, registry_rows_only_detach LPC_PWM1_BASE s pin hrows hall.1⟩
      | set_match pin value => exact ⟨_, rfl, hrows⟩
      | set_period period => exact ⟨_, rfl, hrows⟩
    obtain ⟨s1, hs1, hrows1⟩ := hstep
    obtain ⟨s', hs', hrows'⟩ := ih s1 hrows1 hall.2
    exact ⟨s', by simp only [run, hs1, hs'], hrows'⟩

theorem any_port_active_eq (a c : Nat) :
    any_port_active a c
      = (pwm_pin_active a ⟨0, c⟩ || pwm_pin_active a ⟨1, c⟩ || pwm_pin_active a ⟨2, c⟩
          || pwm_pin_active a ⟨3, c⟩ || pwm_pin_active a ⟨4, c⟩) := by
  simp [any_port_active, List.range_succ, Bool.or_assoc]

theorem pwm_channel_active_eq_any_port (a : Nat) (pin : pin_t) (h6 : pin.pwm ≤ 6)
    (hrows : registry_rows_only a) :
    pwm_channel_active a pin = any_port_active a pin.pwm := by
  rw [any_port_active_eq]
  by_cases h0 : pin.pwm = 0
  · simp [pwm_channel_active, pwm_pin_active, LPC1768_PIN_PWM, h0]
  · have h1 : 1 ≤ pin.pwm := by omega
    have hclear : ∀ i, (i < 6 ∨ 24 ≤ i) → a.testBit i = false := by
      intro i hi
      cases hb : a.testBit i
      · rfl
      · have := hrows i hb
        omega
    rw [pwm_channel_active_eq a pin h1 h6,
      pwm_pin_active_eq a ⟨0, pin.pwm⟩ h1 h6 (Nat.le_of_ble_eq_true rfl),
      pwm_pin_active_eq a ⟨1, pin.pwm⟩ h1 h6 (Nat.le_of_ble_eq_true rfl),
      pwm_pin_active_eq a ⟨2, pin.pwm⟩ h1 h6 (Nat.le_of_ble_eq_true rfl),
      pwm_pin_active_eq a ⟨3, pin.pwm⟩ h1 h6 (Nat.le_of_ble_eq_true rfl),
      pwm_pin_active_eq a ⟨4, pin.pwm⟩ h1 h6 (Nat.le_of_ble_eq_true rfl)]
    have r0 : a.testBit (0 * 6 + (pin.pwm - 1)) = false := hclear _ (by omega)
    have r4 : a.testBit (4 * 6 + (pin.pwm - 1)) = false := hclear _ (by omega)
    simp only [r0, r4, Bool.false_or, Bool.or_false]

/-- C19: from an empty bitset, every sequence of calls on pre-validated pins
runs to a state whose registry bits `0..5` and `24..31` (indeed every bit
outside `6..23`) are clear, and in that state `pwm_channel_active` equals the
OR of `pwm_pin_active` over all five ports for the channel of any pin with
channel in `0..6`. -/
theorem unused_rows_stay_clear (LPC_PWM1_BASE : Nat) (s0 : State) (ops : List Op)
    (h0 : s0.active_pwm_pins = 0) (hops : ops.all Op.prevalidated = true) :
    ∃ s : State, run LPC_PWM1_BASE s0 ops = some s ∧
      (∀ i, (i < 6 ∨ 24 ≤ i) → s.active_pwm_pins.testBit i = false) ∧
      (∀ pin : pin_t, pin.pwm ≤ 6 →
        pwm_channel_active s.active_pwm_pins pin = any_port_active s.active_pwm_pins pin.pwm) := by
  have hinit : registry_rows_only s0.active_pwm_pins := by
    intro i hi
    rw [h0, Nat.zero_testBit] at hi
    exact absurd hi Bool.false_ne_true
  obtain ⟨s, hs, hrows⟩ := registry_rows_only_run LPC_PWM1_BASE ops s0 hinit hops
  refine ⟨s, hs, ?_, fun pin h6 => pwm_channel_active_eq_any_port _ pin h6 hrows⟩
  intro i hi
  cases hb : s.active_pwm_pins.testBit i
  · rfl
  · have := hrows i hb
    omega

/-- Witness for C19: on the reset state, attach (port 1, channel 3), attach
(port 3, channel 6), detach (port 1, channel 3); bit 0 and bit 29 are clear
and the two queries agree for channel 6. -/
theorem unused_rows_stay_clear_witness :
    ∃ s : State,
      run 0x40018000 State.reset
        [Op.attach ⟨1, 3⟩ 500, Op.attach ⟨3, 6⟩ 700, Op.detach ⟨1, 3⟩] = some s ∧
      s.active_pwm_pins.testBit 0 = false ∧ s.active_pwm_pins.testBit 29 = false ∧
      pwm_channel_active s.active_pwm_pins ⟨2, 6⟩ = any_port_active s.active_pwm_pins 6 :=
  have h := unused_rows_stay_clear 0x40018000 State.reset
    [Op.attach ⟨1, 3⟩ 500, Op.attach ⟨3, 6⟩ 700, Op.detach ⟨1, 3⟩] rfl (by decide)
  h.elim fun s hs =>
    ⟨s, hs.1, hs.2.1 0 (Or.inl (by decide)), hs.2.1 29 (Or.inr (by decide)),
      hs.2.2 ⟨2, 6⟩ (by decide)⟩

end HardwarePWM
